import Mathlib

/-!
Verification of the orbit-map component (`day_6/day_6.py`) of the repository.

The Python `Map` class stores `parents : Dict[str, str]` and
`children : DefaultDict[str, List[str]]`.  Python dicts preserve insertion
order, so both are embedded as association lists where a newly created key is
appended at the end.  `collections.defaultdict` inserts an empty list into the
dict whenever a missing key is accessed with `d[k]`; that mutation is part of
the observable dict state, so the query operations below thread the `Map`
value and perform those insertions explicitly.

Failures are modelled explicitly: `Map.add` returns `none` when its assertion
fires, `total_orbits` returns `none` on a `KeyError` (or fuel exhaustion),
and `shortest_path` returns an `SPOutcome` distinguishing a normal result
from the `IndexError` raised by `deque.popleft()` on an empty deque, an
assertion failure, a `KeyError`, and fuel exhaustion.  The loops in the
source terminate for every finite map; the fuel bounds are proved sufficient
where needed.
-/

namespace Day6

/-- Lookup in an association list; models Python dict access `d[k]` and
membership `k in d` (first matching entry wins; all constructions below keep
keys unique, matching a Python dict). -/
def alookup {β : Type} : List (String × β) → String → Option β
  | [], _ => none
  | (k', v) :: rest, k => if k' = k then some v else alookup rest k

/-- The orbit map: `parents` maps a child to its parent, `children` maps a
parent to the list of its children (a `defaultdict(list)` in the source). -/
structure Map where
  parents : List (String × String)
  children : List (String × List String)
deriving DecidableEq, Repr

/-- `Map.__init__`: both dicts start empty. -/
def Map.empty : Map := ⟨[], []⟩

/-- Replace the `children` dict of a map. -/
def withChildren (m : Map) (d : List (String × List String)) : Map :=
  ⟨m.parents, d⟩

/-- The value `self.children[k]` reads: the stored list, or `[]` for a
missing key (the `defaultdict` default). -/
def childrenGet (m : Map) (k : String) : List String :=
  (alookup m.children k).getD []

/-- The state effect of reading `self.children[k]`: a missing key is inserted
with value `[]` (appended at the end, Python dict insertion order). -/
def childrenTouch (d : List (String × List String)) (k : String) :
    List (String × List String) :=
  match alookup d k with
  | some _ => d
  | none => d ++ [(k, [])]

/-- In-place update of the value stored at key `k` (the key keeps its
position, as in a Python dict). -/
def updValue {β : Type} : List (String × β) → String → (β → β) → List (String × β)
  | [], _, _ => []
  | (k', v) :: rest, k, f =>
    (if k' = k then (k', f v) else (k', v)) :: updValue rest k f

/-- The state effect of `self.children[k].append(v)`: append `v` to the
stored list in place, or insert the key with `[v]` if missing. -/
def childrenAppend (d : List (String × List String)) (k v : String) :
    List (String × List String) :=
  match alookup d k with
  | some _ => updValue d k fun l => l ++ [v]
  | none => d ++ [(k, [v])]

/-- `Map.add(parent, child)`.  The source asserts `child not in self.parents`;
a failing assertion is modelled as `none`.  On success it sets
`self.parents[child] = parent` and appends `child` to `self.children[parent]`. -/
def Map.add (m : Map) (parent child : String) : Option Map :=
  if (alookup m.parents child).isSome then none
  else some ⟨m.parents ++ [(child, parent)], childrenAppend m.children parent child⟩

/-- `Map.connections(node)`: the node's parent (if any) followed by its
children.  Reading `self.children[node]` touches the `defaultdict`, so the
(possibly mutated) map is returned alongside the list. -/
def Map.connections (m : Map) (node : String) : List String × Map :=
  ((match alookup m.parents node with
    | some p => [p]
    | none => []) ++ childrenGet m node,
   withChildren m (childrenTouch m.children node))

/-- Total length of all stored children lists (used for the fuel bound of
`total_orbits`). -/
def childrenSize (d : List (String × List String)) : Nat :=
  (d.map fun e => e.2.length).sum

/-- The loop of `Map.total_orbits`.  `stk` is the Python list `to_visit`
stored in reverse, so `to_visit.pop()` (which pops the last element) is
popping the head of `stk`, and `to_visit.extend(cs)` prepends `cs.reverse`.
Each iteration pops `current`; if it already has a result it is skipped,
otherwise `result[current] = result[self.parents[current]] + 1` (a missing
key is a `KeyError`, modelled as `none`) and the children of `current` are
pushed.  Reading `self.children[current]` touches the defaultdict. -/
def totalOrbitsAux :
    Nat → Map → List (String × Nat) → List String →
    Option (List (String × Nat)) × Map
  | 0, m, _, _ => (none, m)
  | _ + 1, m, result, [] => (some result, m)
  | fuel + 1, m, result, current :: rest =>
    if (alookup result current).isSome then totalOrbitsAux fuel m result rest
    else
      match alookup m.parents current with
      | none => (none, m)
      | some p =>
        match alookup result p with
        | none => (none, m)
        | some d =>
          totalOrbitsAux fuel (withChildren m (childrenTouch m.children current))
            (result ++ [(current, d + 1)]) ((childrenGet m current).reverse ++ rest)

/-- Fuel for `total_orbits`: the loop pops one element per iteration and each
node's children list is pushed at most once, so this bound suffices. -/
def totalOrbitsFuel (m : Map) (root : String) : Nat :=
  (childrenGet m root).length + childrenSize m.children + 1

/-- `Map.total_orbits(root)` (the source's default argument is
`root='COM'`; callers here always pass it explicitly).  Starts from
`result = {root: 0}` and `to_visit = self.children[root].copy()` (which
touches the defaultdict at `root`). -/
def Map.total_orbits (m : Map) (root : String) :
    Option (List (String × Nat)) × Map :=
  totalOrbitsAux (totalOrbitsFuel m root)
    (withChildren m (childrenTouch m.children root))
    [(root, 0)] (childrenGet m root).reverse

/-- Outcome of `Map.shortest_path`: a returned path, the `IndexError` raised
by `to_visit.popleft()` on an empty deque, the `assert node in paths`
failure, the `KeyError` of `paths[dst]`, or fuel exhaustion. -/
inductive SPOutcome where
  | found : List String → SPOutcome
  | emptyQueueError : SPOutcome
  | assertError : SPOutcome
  | keyError : SPOutcome
  | fuelOut : SPOutcome
deriving DecidableEq, Repr

/-- The paths dict of `shortest_path`. -/
abbrev Paths := List (String × List String)

/-- The `for other in self.connections(node)` loop inside `visit`:
an `other` already in `paths` is skipped, otherwise `paths[other]` is set to
`connection_path` and `other` is appended to the deque. -/
def visitFold (cp : List String) :
    List String → Paths → List String → Paths × List String
  | [], paths, queue => (paths, queue)
  | other :: rest, paths, queue =>
    if (alookup paths other).isSome then visitFold cp rest paths queue
    else visitFold cp rest (paths ++ [(other, cp)]) (queue ++ [other])

/-- The inner function `visit(node)`: asserts `node in paths` (failure is
`none`; the map is unchanged at that point), computes
`connection_path = paths[node] + [node]`, calls `self.connections(node)`
(which may touch the defaultdict), and runs the loop over the connections. -/
def visitNode (m : Map) (paths : Paths) (queue : List String) (node : String) :
    Option (Paths × List String) × Map :=
  match alookup paths node with
  | none => (none, m)
  | some p =>
    let res := m.connections node
    (some (visitFold (p ++ [node]) res.1 paths queue), res.2)

/-- The `for node in self.connections(src): visit(node)` loop. -/
def initPhase (m : Map) (paths : Paths) (queue : List String) :
    List String → Option (Paths × List String) × Map
  | [] => (some (paths, queue), m)
  | node :: rest =>
    match visitNode m paths queue node with
    | (none, m') => (none, m')
    | (some (paths', queue'), m') => initPhase m' paths' queue' rest

/-- The `while dst not in to_visit` loop: if `dst` is in the deque the loop
exits and `paths[dst]` is returned; otherwise `to_visit.popleft()` pops the
front — raising `IndexError` on an empty deque — and `visit(current)` runs.
Membership in an empty deque is always false, so the empty-deque case is
listed first without the (unreachable there) found-check. -/
def spLoop : Nat → Map → Paths → List String → String → SPOutcome × Map
  | 0, m, _, _, _ => (SPOutcome.fuelOut, m)
  | _ + 1, m, _, [], _ => (SPOutcome.emptyQueueError, m)
  | fuel + 1, m, paths, current :: rest, dst =>
    if dst ∈ current :: rest then
      match alookup paths dst with
      | some p => (SPOutcome.found p, m)
      | none => (SPOutcome.keyError, m)
    else
      match visitNode m paths rest current with
      | (none, m') => (SPOutcome.assertError, m')
      | (some (paths', queue'), m') => spLoop fuel m' paths' queue' dst

/-- `paths.update({node: [] for node in conns})`: each node of `conns` is
assigned `[]`, overwriting in place if present and appending otherwise. -/
def updEmpty : Paths → List String → Paths
  | paths, [] => paths
  | paths, n :: rest =>
    if (alookup paths n).isSome then
      updEmpty (updValue paths n fun _ => []) rest
    else updEmpty (paths ++ [(n, [])]) rest

/-- Every string occurring in the map (keys and values of both dicts); with
the start node prepended this bounds the set of nodes `shortest_path` can
ever discover. -/
def allNodes (m : Map) : List String :=
  m.parents.map Prod.fst ++ m.parents.map Prod.snd ++
    m.children.map Prod.fst ++ (m.children.map Prod.snd).flatten

/-- Candidate nodes of a `shortest_path` run. -/
def uniList (m : Map) (src : String) : List String := src :: allNodes m

/-- Fuel for the `shortest_path` loop: each iteration pops one element and
every node is appended at most once, so twice the candidate count suffices. -/
def spFuel (m : Map) (src : String) : Nat := 2 * (uniList m src).length + 2

/-- `Map.shortest_path(src, dst)`.  Builds `paths = {src: []}` updated with
`{node: [] for node in self.connections(src)}`, visits each node of
`self.connections(src)` (a second `connections` call in the source), then
runs the `while dst not in to_visit` loop. -/
def Map.shortest_path (m : Map) (src dst : String) : SPOutcome × Map :=
  let r1 := m.connections src
  let paths0 := updEmpty [(src, [])] r1.1
  let r2 := r1.2.connections src
  match initPhase r2.2 paths0 [] r2.1 with
  | (none, m') => (SPOutcome.assertError, m')
  | (some (paths1, queue1), m3) => spLoop (spFuel m src) m3 paths1 queue1 dst

/-- Python's `orbit.split(')')` at the character-list level: splits on every
occurrence of `)` and keeps empty segments, so the result has one more
segment than there are `)` characters. -/
def splitP : List Char → List (List Char)
  | [] => [[]]
  | c :: rest =>
    let ss := splitP rest
    if c = ')' then [] :: ss
    else (c :: ss.headD []) :: ss.tail

/-- The loop of `parse_map`: each line is split on `)` and destructured as
`parent, child` (a `ValueError` — modelled as `none` — unless exactly two
segments), then `result.add(parent, child)` (whose assertion failure also
propagates as `none`). -/
def parseFold : List String → Map → Option Map
  | [], m => some m
  | orbit :: rest, m =>
    match splitP orbit.data with
    | [parent, child] =>
      match m.add ⟨parent⟩ ⟨child⟩ with
      | none => none
      | some m' => parseFold rest m'
    | _ => none

/-- `parse_map(orbits)`: folds the lines into a fresh `Map`. -/
def parse_map (orbits : List String) : Option Map :=
  parseFold orbits Map.empty

/-- The 11-edge reference fixture from the tests. -/
def exampleLines : List String :=
  ["COM)B", "B)C", "C)D", "D)E", "E)F", "B)G", "G)H", "D)I", "E)J", "J)K", "K)L"]

/-- The parsed 11-edge fixture. -/
def exampleMap : Map := (parse_map exampleLines).getD Map.empty

/-- The fixture extended with the `K)YOU` and `I)SAN` edges from the tests. -/
def exampleMap2 : Map :=
  ((exampleMap.add "K" "YOU").bind fun m => m.add "I" "SAN").getD Map.empty

/-- A two-node map with a single edge, used as a counterexample input. -/
def pairMap : Map := (parse_map ["COM)B"]).getD Map.empty

/-- Iterated parent lookup: `parentIter m n x` follows the parent pointer
`n` times from `x`. -/
def parentIter (m : Map) : Nat → String → Option String
  | 0, x => some x
  | n + 1, x => (alookup m.parents x).bind (parentIter m n)

/-- The map's parent pointers contain no cycle (the "forest" assumption of
the spec). -/
def Acyclic (m : Map) : Prop := ∀ x n, 0 < n → parentIter m n x ≠ some x

/-- Maps built from `Map()` by successful `add` calls. -/
inductive Built : Map → Prop
  | empty : Built Map.empty
  | add {m m' : Map} {p c : String} : Built m → m.add p c = some m' → Built m'

/-- `ChildReach m root x n`: node `x` is reachable from `root` in exactly `n`
steps along child edges (`n` is the number of edges to `root`). -/
inductive ChildReach (m : Map) (root : String) : String → Nat → Prop
  | refl : ChildReach m root root 0
  | step {p c : String} {n : Nat} : ChildReach m root p n → c ∈ childrenGet m p →
      ChildReach m root c (n + 1)

/-- The connection list of a node, ignoring the defaultdict side effect. -/
def connList (m : Map) (x : String) : List String := (m.connections x).1

/-- Undirected adjacency as used by `shortest_path`: `y` occurs in
`connections(x)`. -/
def UAdj (m : Map) (x y : String) : Prop := y ∈ connList m x

/-- Reachability along `connections` steps. -/
def StepReach (m : Map) : String → String → Prop := Relation.ReflTransGen (UAdj m)

/-- Observable equality of two maps: equal parent dicts and extensionally
equal children dicts (reading any key through the defaultdict default gives
the same list).  Touching the defaultdict preserves this. -/
def MapExt (m₁ m₂ : Map) : Prop :=
  m₁.parents = m₂.parents ∧ ∀ k, childrenGet m₁ k = childrenGet m₂ k

/-- The structural invariants of maps built by `add`: both dicts have unique
keys, the two dicts record exactly the same edges, and no children list has
a duplicate. -/
structure BuiltInv (m : Map) : Prop where
  parentsNodup : (m.parents.map Prod.fst).Nodup
  childrenNodup : (m.children.map Prod.fst).Nodup
  consist : ∀ p c, c ∈ childrenGet m p ↔ alookup m.parents c = some p
  listNodup : ∀ p, (childrenGet m p).Nodup

/-- Total length of the children lists of nodes without a result entry: the
potential of the `total_orbits` loop, since each such list is pushed onto
`to_visit` at most once. -/
def sizeUnvisited (d : List (String × List String)) (result : List (String × Nat)) : Nat :=
  (d.map fun e => if alookup result e.1 = none then e.2.length else 0).sum

instance (m : Map) (x y : String) : Decidable (UAdj m x y) :=
  inferInstanceAs (Decidable (y ∈ connList m x))

/-- A duplicate-free adjacency chain from `src` through the intermediate
nodes `l` to `dst`: in a forest this is the unique simple path, and it is
what `shortest_path` records in `paths`. -/
def NodupChain (m : Map) (src : String) (l : List String) (dst : String) : Prop :=
  List.Chain' (UAdj m) (src :: l ++ [dst]) ∧ (src :: l ++ [dst]).Nodup

/-- An ascending parent chain from `a` through `u`, ending at `t` (which is
`a` itself when `u` is empty). -/
def UpChainEnd (m : Map) : String → List String → String → Prop
  | a, [], t => a = t
  | a, x :: rest, t => alookup m.parents a = some x ∧ UpChainEnd m x rest t

/-- A descending parent chain from `t` through `d`, ending at `b` (which is
`t` itself when `d` is empty): each listed node is a child of the previous
node. -/
def DownChainEnd (m : Map) : String → List String → String → Prop
  | t, [], b => t = b
  | t, c :: rest, b => alookup m.parents c = some t ∧ DownChainEnd m c rest b

/-! Basic lemmas about association lists and the defaultdict operations. -/

theorem alookup_eq_none {β : Type} (l : List (String × β)) (k : String) :
    alookup l k = none ↔ k ∉ l.map Prod.fst := by
  induction l with
  | nil => simp [alookup]
  | cons e rest ih =>
    obtain ⟨k', v⟩ := e
    by_cases h : k' = k
    · subst h
      simp [alookup]
    · simp [alookup, h, ih, Ne.symm h]

theorem alookup_mem {β : Type} {l : List (String × β)} {k : String} {v : β}
    (h : alookup l k = some v) : (k, v) ∈ l := by
  induction l with
  | nil => simp [alookup] at h
  | cons e rest ih =>
    obtain ⟨k', v'⟩ := e
    by_cases hk : k' = k
    · subst hk
      simp [alookup] at h
      simp [h]
    · simp [alookup, hk] at h
      simp [ih h]

theorem alookup_append_some {β : Type} {l₁ : List (String × β)} (l₂ : List (String × β))
    {k : String} {v : β} (h : alookup l₁ k = some v) : alookup (l₁ ++ l₂) k = some v := by
  induction l₁ with
  | nil => simp [alookup] at h
  | cons e rest ih =>
    obtain ⟨k', v'⟩ := e
    by_cases hk : k' = k <;> simp_all [alookup, hk]

theorem alookup_append_none {β : Type} {l₁ : List (String × β)} (l₂ : List (String × β))
    {k : String} (h : alookup l₁ k = none) : alookup (l₁ ++ l₂) k = alookup l₂ k := by
  induction l₁ with
  | nil => simp [alookup]
  | cons e rest ih =>
    obtain ⟨k', v'⟩ := e
    by_cases hk : k' = k <;> simp_all [alookup, hk]

theorem alookup_updValue {β : Type} (l : List (String × β)) (k : String) (f : β → β)
    (k' : String) :
    alookup (updValue l k f) k' =
      if k = k' then (alookup l k').map f else alookup l k' := by
  induction l with
  | nil => simp [alookup, updValue]
  | cons e rest ih =>
    obtain ⟨k₀, v₀⟩ := e
    rw [updValue]
    by_cases h₀ : k₀ = k
    · subst h₀
      rw [if_pos rfl]
      by_cases h₁ : k₀ = k'
      · subst h₁
        simp [alookup]
      · simp [alookup, h₁, ih]
    · rw [if_neg h₀]
      by_cases h₁ : k₀ = k'
      · subst h₁
        simp [alookup, Ne.symm h₀]
      · simp [alookup, h₁, ih]

theorem keys_updValue {β : Type} (l : List (String × β)) (k : String) (f : β → β) :
    (updValue l k f).map Prod.fst = l.map Prod.fst := by
  induction l with
  | nil => rfl
  | cons e rest ih =>
    obtain ⟨k₀, v₀⟩ := e
    rw [updValue]
    by_cases h : k₀ = k
    · rw [if_pos h]
      simp [ih]
    · rw [if_neg h]
      simp [ih]

theorem alookup_touch (d : List (String × List String)) (k k' : String) :
    (alookup (childrenTouch d k) k').getD [] = (alookup d k').getD [] := by
  unfold childrenTouch
  cases h : alookup d k with
  | some v => rfl
  | none =>
    cases h' : alookup d k' with
    | some v => rw [alookup_append_some _ h']
    | none =>
      rw [alookup_append_none _ h']
      by_cases hk : k = k' <;> simp [alookup, hk, h']

theorem touch_keys_nodup {d : List (String × List String)} (k : String)
    (h : (d.map Prod.fst).Nodup) : ((childrenTouch d k).map Prod.fst).Nodup := by
  unfold childrenTouch
  cases hk : alookup d k with
  | some v => exact h
  | none =>
    rw [alookup_eq_none] at hk
    simp [List.nodup_append, h, hk]

theorem childrenSize_touch (d : List (String × List String)) (k : String) :
    childrenSize (childrenTouch d k) = childrenSize d := by
  unfold childrenTouch
  cases alookup d k with
  | some v => rfl
  | none => simp [childrenSize]

theorem childrenGet_touch (m : Map) (k k' : String) :
    childrenGet (withChildren m (childrenTouch m.children k)) k' = childrenGet m k' := by
  simp [childrenGet, withChildren, alookup_touch]

theorem alookup_childrenAppend (d : List (String × List String)) (k v k' : String) :
    alookup (childrenAppend d k v) k' =
      if k = k' then some ((alookup d k').getD [] ++ [v]) else alookup d k' := by
  unfold childrenAppend
  cases h : alookup d k with
  | some l =>
    dsimp only
    rw [alookup_updValue]
    by_cases hk : k = k'
    · subst hk
      simp [h]
    · simp [hk]
  | none =>
    dsimp only
    by_cases hk : k = k'
    · subst hk
      rw [alookup_append_none _ h]
      simp [alookup, h]
    · cases h' : alookup d k' with
      | some l =>
        rw [alookup_append_some _ h']
        simp [hk]
      | none =>
        rw [alookup_append_none _ h']
        simp [alookup, hk, h']

theorem mapExt_refl (m : Map) : MapExt m m := ⟨rfl, fun _ => rfl⟩

theorem mapExt_trans {m₁ m₂ m₃ : Map} (h₁ : MapExt m₁ m₂) (h₂ : MapExt m₂ m₃) :
    MapExt m₁ m₃ :=
  ⟨h₁.1.trans h₂.1, fun k => (h₁.2 k).trans (h₂.2 k)⟩

theorem mapExt_touch (m : Map) (k : String) :
    MapExt (withChildren m (childrenTouch m.children k)) m :=
  ⟨rfl, fun k' => childrenGet_touch m k k'⟩

theorem connList_ext {m₁ m₂ : Map} (h : MapExt m₁ m₂) (x : String) :
    connList m₁ x = connList m₂ x := by
  simp [connList, Map.connections, h.1, h.2 x]

theorem connections_fst (m : Map) (x : String) : (m.connections x).1 = connList m x := rfl

theorem connections_snd_ext (m : Map) (x : String) : MapExt (m.connections x).2 m :=
  mapExt_touch m x

/-! Consequences of a successful `add` and the invariants of built maps. -/

theorem add_elim {m m' : Map} {p c : String} (h : m.add p c = some m') :
    alookup m.parents c = none ∧
      m' = ⟨m.parents ++ [(c, p)], childrenAppend m.children p c⟩ := by
  unfold Map.add at h
  cases hc : alookup m.parents c with
  | some v =>
    rw [hc] at h
    simp at h
  | none =>
    rw [hc] at h
    simp at h
    exact ⟨rfl, h.symm⟩

theorem childrenGet_add {m m' : Map} {p c : String} (h : m.add p c = some m') (q : String) :
    childrenGet m' q = if p = q then childrenGet m q ++ [c] else childrenGet m q := by
  obtain ⟨-, rfl⟩ := add_elim h
  show (alookup (childrenAppend m.children p c) q).getD [] = _
  rw [alookup_childrenAppend]
  by_cases hpq : p = q
  · simp [hpq, childrenGet]
  · simp [hpq, childrenGet]

theorem alookup_parents_add {m m' : Map} {p c : String} (h : m.add p c = some m')
    (x : String) :
    alookup m'.parents x = if c = x then some p else alookup m.parents x := by
  obtain ⟨hc, rfl⟩ := add_elim h
  show alookup (m.parents ++ [(c, p)]) x = _
  by_cases hx : c = x
  · subst hx
    rw [if_pos rfl, alookup_append_none _ hc]
    simp [alookup]
  · rw [if_neg hx]
    cases h' : alookup m.parents x with
    | some v => exact alookup_append_some _ h'
    | none =>
      rw [alookup_append_none _ h']
      simp [alookup, hx, h']

theorem built_inv {m : Map} (h : Built m) : BuiltInv m := by
  induction h with
  | empty =>
    refine ⟨List.nodup_nil, List.nodup_nil, ?_, ?_⟩
    · intro p c
      simp [childrenGet, Map.empty, alookup]
    · intro p
      simp [childrenGet, Map.empty, alookup]
  | add hb hadd ih =>
    rename_i m m' p c
    have hc := (add_elim hadd).1
    have hcmem : c ∉ m.parents.map Prod.fst := (alookup_eq_none _ _).mp hc
    have hpar := alookup_parents_add hadd
    have hcg := childrenGet_add hadd
    refine ⟨?_, ?_, ?_, ?_⟩
    · obtain ⟨-, rfl⟩ := add_elim hadd
      simp [List.nodup_append, ih.parentsNodup, hcmem]
    · obtain ⟨-, rfl⟩ := add_elim hadd
      show ((childrenAppend m.children p c).map Prod.fst).Nodup
      unfold childrenAppend
      cases hp : alookup m.children p with
      | some l =>
        rw [keys_updValue]
        exact ih.childrenNodup
      | none =>
        have : p ∉ m.children.map Prod.fst := (alookup_eq_none _ _).mp hp
        simp [List.nodup_append, ih.childrenNodup, this]
    · intro q c'
      rw [hcg q, hpar c']
      by_cases hpq : p = q
      · subst hpq
        by_cases hcc : c = c'
        · subst hcc
          simp
        · simp only [if_neg hcc]
          simp [hcc, Ne.symm hcc, ih.consist p c']
      · rw [if_neg hpq]
        by_cases hcc : c = c'
        · subst hcc
          simp only [if_pos rfl]
          constructor
          · intro hmem
            exact absurd ((ih.consist q c).mp hmem) (by simp [hc])
          · intro hsome
            exact absurd (Option.some.inj hsome) hpq
        · simp [hcc, ih.consist q c']
    · intro q
      rw [hcg q]
      by_cases hpq : p = q
      · simp only [if_pos hpq]
        have : c ∉ childrenGet m q := by
          intro hmem
          exact absurd ((ih.consist q c).mp hmem) (by simp [hc])
        simp [List.nodup_append, ih.listNodup q, this]
      · simp [hpq, ih.listNodup q]

/-! Iterated parent lookups, acyclicity, and depths along child edges. -/

theorem parentIter_add_right (m : Map) (a b : Nat) (x : String) :
    parentIter m (a + b) x = (parentIter m a x).bind (parentIter m b) := by
  induction a generalizing x with
  | zero => simp [parentIter]
  | succ a ih =>
    have he : a + 1 + b = (a + b) + 1 := by omega
    rw [he, parentIter, parentIter]
    cases hp : alookup m.parents x with
    | none => simp
    | some p => simp [ih]

theorem parentIter_none_mono {m : Map} {x : String} {a : Nat}
    (h : parentIter m a x = none) {b : Nat} (hab : a ≤ b) : parentIter m b x = none := by
  have he : b = a + (b - a) := by omega
  rw [he, parentIter_add_right, h]
  rfl

theorem childReach_iff_parentIter {m : Map} (inv : BuiltInv m) (root x : String) (n : Nat) :
    ChildReach m root x n ↔ parentIter m n x = some root := by
  constructor
  · intro h
    induction h with
    | refl => rfl
    | step hr hcm ih =>
      rename_i p c k
      rw [parentIter, (inv.consist p c).mp hcm]
      simpa using ih
  · intro h
    induction n generalizing x with
    | zero =>
      have : x = root := by simpa [parentIter] using h
      subst this
      exact ChildReach.refl
    | succ n ih =>
      rw [parentIter] at h
      cases hp : alookup m.parents x with
      | none => simp [hp] at h
      | some p =>
        rw [hp] at h
        simp at h
        exact ChildReach.step (ih p h) ((inv.consist p x).mpr hp)

theorem parentIter_cycle_free {m : Map} (hac : Acyclic m) {root x : String} {d d' : Nat}
    (h : parentIter m d x = some root) (h' : parentIter m d' x = some root)
    (hlt : d < d') : False := by
  have he : d' = d + (d' - d) := by omega
  rw [he, parentIter_add_right, h] at h'
  simp at h'
  exact hac root (d' - d) (by omega) h'

theorem childReach_unique {m : Map} (inv : BuiltInv m) (hac : Acyclic m)
    {root x : String} {d d' : Nat} (h : ChildReach m root x d)
    (h' : ChildReach m root x d') : d = d' := by
  rw [childReach_iff_parentIter inv] at h h'
  rcases Nat.lt_trichotomy d d' with hlt | heq | hlt
  · exact absurd (parentIter_cycle_free hac h h' hlt) not_false
  · exact heq
  · exact absurd (parentIter_cycle_free hac h' h hlt) not_false

theorem acyclic_of_bounded (m : Map)
    (h : ∀ e ∈ m.parents, parentIter m (m.parents.length + 1) e.1 = none) : Acyclic m := by
  have hall : ∀ x, parentIter m (m.parents.length + 1) x = none := by
    intro x
    cases hx : alookup m.parents x with
    | none =>
      rw [parentIter, hx]
      rfl
    | some p => exact h (x, p) (alookup_mem hx)
  intro x n hn hcyc
  have hk : ∀ k, parentIter m (k * n) x = some x := by
    intro k
    induction k with
    | zero => simp [parentIter]
    | succ k ih =>
      have he : (k + 1) * n = k * n + n := by ring
      rw [he, parentIter_add_right, ih]
      simpa using hcyc
  have h1 := hk (m.parents.length + 1)
  have h2 : parentIter m ((m.parents.length + 1) * n) x = none :=
    parentIter_none_mono (hall x) (Nat.le_mul_of_pos_right _ hn)
  rw [h1] at h2
  exact Option.noConfusion h2

/-! Lemmas about unique keys. -/

theorem nodup_keys_inj {β : Type} {l : List (String × β)} (nd : (l.map Prod.fst).Nodup)
    {c : String} {v₁ v₂ : β} (h₁ : (c, v₁) ∈ l) (h₂ : (c, v₂) ∈ l) : v₁ = v₂ := by
  induction l with
  | nil => simp at h₁
  | cons e rest ih =>
    simp only [List.map_cons, List.nodup_cons] at nd
    rcases List.mem_cons.mp h₁ with h₁' | h₁' <;> rcases List.mem_cons.mp h₂ with h₂' | h₂'
    · have : (c, v₁) = (c, v₂) := h₁'.trans h₂'.symm
      exact ((Prod.mk.injEq _ _ _ _).mp this).2
    · exfalso
      apply nd.1
      have he : e.1 = c := by rw [← h₁']
      rw [he]
      exact List.mem_map_of_mem Prod.fst h₂'
    · exfalso
      apply nd.1
      have he : e.1 = c := by rw [← h₂']
      rw [he]
      exact List.mem_map_of_mem Prod.fst h₁'
    · exact ih nd.2 h₁' h₂'

/-! Lemmas about `split` and `parse_map`. -/

theorem splitP_ne_nil (cs : List Char) : splitP cs ≠ [] := by
  cases cs with
  | nil => simp [splitP]
  | cons c rest =>
    rw [splitP]
    by_cases h : c = ')' <;> simp [h]

theorem splitP_length (cs : List Char) : (splitP cs).length = cs.count ')' + 1 := by
  induction cs with
  | nil => simp [splitP]
  | cons c rest ih =>
    rw [splitP]
    by_cases h : c = ')'
    · subst h
      simp [List.count_cons, ih]
    · cases hs : splitP rest with
      | nil => exact absurd hs (splitP_ne_nil rest)
      | cons s ss =>
        rw [hs] at ih
        simp only [List.length_cons] at ih
        simp only [if_neg h]
        simp [List.count_cons, h, hs]
        omega

theorem parseFold_malformed (orbits : List String) :
    ∀ m : Map, (∃ line ∈ orbits, line.data.count ')' ≠ 1) → parseFold orbits m = none := by
  induction orbits with
  | nil =>
    intro m h
    simp at h
  | cons orbit rest ih =>
    intro m h
    rw [parseFold]
    rcases hsplit : splitP orbit.data with - | ⟨a, - | ⟨b, - | ⟨d, t⟩⟩⟩
    · rfl
    · rfl
    · have hcount : orbit.data.count ')' = 1 := by
        have := splitP_length orbit.data
        rw [hsplit] at this
        simpa using this.symm
      have hrest : ∃ line ∈ rest, line.data.count ')' ≠ 1 := by
        rcases h with ⟨line, hmem, hne⟩
        rcases List.mem_cons.mp hmem with rfl | hmem'
        · exact absurd hcount hne
        · exact ⟨line, hmem', hne⟩
      show (match m.add ⟨a⟩ ⟨b⟩ with
        | none => none
        | some m' => parseFold rest m') = none
      cases hadd : m.add ⟨a⟩ ⟨b⟩ with
      | none => rfl
      | some m' => exact ih m' hrest
    · rfl

/-! The queries only touch the children defaultdict, so they preserve the
observable map state (`MapExt`). -/

theorem mapExt_symm {m₁ m₂ : Map} (h : MapExt m₁ m₂) : MapExt m₂ m₁ :=
  ⟨h.1.symm, fun k => (h.2 k).symm⟩

theorem totalOrbitsAux_snd_ext :
    ∀ (fuel : Nat) (m : Map) (result : List (String × Nat)) (stk : List String),
      MapExt (totalOrbitsAux fuel m result stk).2 m := by
  intro fuel
  induction fuel with
  | zero =>
    intro m r s
    exact mapExt_refl m
  | succ fuel ih =>
    intro m r s
    cases s with
    | nil => exact mapExt_refl m
    | cons current rest =>
      rw [totalOrbitsAux]
      by_cases h : (alookup r current).isSome
      · rw [if_pos h]
        exact ih m r rest
      · rw [if_neg h]
        split
        · exact mapExt_refl m
        · split
          · exact mapExt_refl m
          · exact mapExt_trans (ih _ _ _) (mapExt_touch m current)

theorem total_orbits_snd_ext (m : Map) (root : String) :
    MapExt (m.total_orbits root).2 m :=
  mapExt_trans (totalOrbitsAux_snd_ext _ _ _ _) (mapExt_touch m root)

theorem visitNode_none {m : Map} {paths : Paths} {queue : List String} {node : String}
    (h : alookup paths node = none) : visitNode m paths queue node = (none, m) := by
  unfold visitNode
  rw [h]

theorem visitNode_some {m : Map} {paths : Paths} {queue : List String} {node : String}
    {p : List String} (h : alookup paths node = some p) :
    visitNode m paths queue node =
      (some (visitFold (p ++ [node]) (connList m node) paths queue),
        (m.connections node).2) := by
  unfold visitNode
  rw [h]
  rfl

theorem visitNode_snd_ext (m : Map) (paths : Paths) (queue : List String) (node : String) :
    MapExt (visitNode m paths queue node).2 m := by
  cases h : alookup paths node with
  | none =>
    rw [visitNode_none h]
    exact mapExt_refl m
  | some p =>
    rw [visitNode_some h]
    exact connections_snd_ext m node

theorem initPhase_snd_ext :
    ∀ (conns : List String) (m : Map) (paths : Paths) (queue : List String),
      MapExt (initPhase m paths queue conns).2 m := by
  intro conns
  induction conns with
  | nil =>
    intro m p q
    exact mapExt_refl m
  | cons node rest ih =>
    intro m p q
    rw [initPhase]
    have hv := visitNode_snd_ext m p q node
    cases hres : visitNode m p q node with
    | mk o m' =>
      rw [hres] at hv
      cases o with
      | none => exact hv
      | some pq =>
        obtain ⟨p', q'⟩ := pq
        exact mapExt_trans (ih m' p' q') hv

theorem spLoop_snd_ext :
    ∀ (fuel : Nat) (m : Map) (paths : Paths) (queue : List String) (dst : String),
      MapExt (spLoop fuel m paths queue dst).2 m := by
  intro fuel
  induction fuel with
  | zero =>
    intro m paths queue dst
    exact mapExt_refl m
  | succ fuel ih =>
    intro m paths queue dst
    cases queue with
    | nil => exact mapExt_refl m
    | cons current rest =>
      rw [spLoop]
      by_cases hq : dst ∈ current :: rest
      · rw [if_pos hq]
        split
        · exact mapExt_refl m
        · exact mapExt_refl m
      · rw [if_neg hq]
        have hv := visitNode_snd_ext m paths rest current
        split
        · rename_i m' heq
          rw [heq] at hv
          exact hv
        · rename_i paths' queue' m' heq
          rw [heq] at hv
          exact mapExt_trans (ih m' paths' queue' dst) hv

theorem shortest_path_snd_ext (m : Map) (src dst : String) :
    MapExt (m.shortest_path src dst).2 m := by
  have hr2 : MapExt ((m.connections src).2.connections src).2 m :=
    mapExt_trans (connections_snd_ext _ src) (connections_snd_ext m src)
  have hip := initPhase_snd_ext ((m.connections src).2.connections src).1
    ((m.connections src).2.connections src).2 (updEmpty [(src, [])] (m.connections src).1) []
  simp only [Map.shortest_path]
  split
  · rename_i m' heq
    rw [heq] at hip
    exact mapExt_trans hip hr2
  · rename_i paths1 queue1 m3 heq
    rw [heq] at hip
    exact mapExt_trans (mapExt_trans (spLoop_snd_ext _ m3 paths1 queue1 dst) hip) hr2

/-! Runs of `total_orbits` depend only on the observable map state, and
preserve the total size of the children dict. -/

theorem totalOrbitsAux_ext :
    ∀ (fuel : Nat) {m₁ m₂ : Map}, MapExt m₁ m₂ →
      ∀ (result : List (String × Nat)) (stk : List String),
        (totalOrbitsAux fuel m₁ result stk).1 = (totalOrbitsAux fuel m₂ result stk).1 := by
  intro fuel
  induction fuel with
  | zero =>
    intro m₁ m₂ h r s
    rfl
  | succ fuel ih =>
    intro m₁ m₂ h r s
    cases s with
    | nil => rfl
    | cons current rest =>
      rw [totalOrbitsAux, totalOrbitsAux]
      by_cases hr : (alookup r current).isSome
      · rw [if_pos hr, if_pos hr]
        exact ih h r rest
      · rw [if_neg hr, if_neg hr, h.1, h.2 current]
        split
        · rfl
        · split
          · rfl
          · have htouch : MapExt (withChildren m₁ (childrenTouch m₁.children current))
                (withChildren m₂ (childrenTouch m₂.children current)) :=
              mapExt_trans (mapExt_touch m₁ current)
                (mapExt_trans h (mapExt_symm (mapExt_touch m₂ current)))
            exact ih htouch _ _

theorem totalOrbitsAux_size :
    ∀ (fuel : Nat) (m : Map) (result : List (String × Nat)) (stk : List String),
      childrenSize (totalOrbitsAux fuel m result stk).2.children =
        childrenSize m.children := by
  intro fuel
  induction fuel with
  | zero =>
    intro m r s
    rfl
  | succ fuel ih =>
    intro m r s
    cases s with
    | nil => rfl
    | cons current rest =>
      rw [totalOrbitsAux]
      by_cases h : (alookup r current).isSome
      · rw [if_pos h]
        exact ih m r rest
      · rw [if_neg h]
        split
        · rfl
        · split
          · rfl
          · rw [ih]
            exact childrenSize_touch m.children current

/-! Lookups in a list extended by a single fresh entry. -/

theorem alookup_append_single {β : Type} {res : List (String × β)} {c x : String} {v d : β}
    (h : alookup (res ++ [(c, v)]) x = some d) :
    alookup res x = some d ∨ (alookup res x = none ∧ x = c ∧ d = v) := by
  cases hr : alookup res x with
  | some v' =>
    rw [alookup_append_some _ hr] at h
    exact Or.inl h
  | none =>
    rw [alookup_append_none _ hr] at h
    right
    by_cases hc : c = x
    · subst hc
      simp [alookup] at h
      exact ⟨rfl, rfl, h.symm⟩
    · simp [alookup, hc] at h

theorem alookup_append_single_self {β : Type} {res : List (String × β)} {c : String} {v : β}
    (h : alookup res c = none) : alookup (res ++ [(c, v)]) c = some v := by
  rw [alookup_append_none _ h]
  simp [alookup]

theorem alookup_append_single_ne {β : Type} {res : List (String × β)} {c x : String} {v : β}
    (hne : c ≠ x) : alookup (res ++ [(c, v)]) x = alookup res x := by
  cases hr : alookup res x with
  | some w => exact alookup_append_some _ hr
  | none =>
    rw [alookup_append_none _ hr]
    simp [alookup, hne]

/-! Inversion lemmas for `ChildReach`. -/

theorem childReach_zero {m : Map} {root x : String} (h : ChildReach m root x 0) : x = root := by
  cases h
  rfl

theorem childReach_head {m : Map} {root x : String} {n : Nat} :
    ChildReach m root x (n + 1) → ∃ c ∈ childrenGet m root, ChildReach m c x n := by
  induction n generalizing x with
  | zero =>
    intro h
    cases h with
    | step hp hc =>
      rename_i p
      have := childReach_zero hp
      subst this
      exact ⟨x, hc, ChildReach.refl⟩
  | succ n ih =>
    intro h
    cases h with
    | step hp hc =>
      rename_i p
      obtain ⟨c, hcm, hcr⟩ := ih hp
      exact ⟨c, hcm, ChildReach.step hcr hc⟩

/-! Lemmas about the loop potential `sizeUnvisited`. -/

theorem sizeUnvisited_touch (d : List (String × List String)) (k : String)
    (res : List (String × Nat)) :
    sizeUnvisited (childrenTouch d k) res = sizeUnvisited d res := by
  unfold childrenTouch
  split
  · rfl
  · simp [sizeUnvisited]

theorem sizeUnvisited_le (d : List (String × List String)) (res : List (String × Nat)) :
    sizeUnvisited d res ≤ childrenSize d := by
  unfold sizeUnvisited childrenSize
  induction d with
  | nil => simp
  | cons e rest ih =>
    simp only [List.map_cons, List.sum_cons]
    have hhead : (if alookup res e.1 = none then e.2.length else 0) ≤ e.2.length := by
      split <;> simp
    omega

theorem sizeUnvisited_mono (d : List (String × List String)) (res : List (String × Nat))
    (c : String) (v : Nat) :
    sizeUnvisited d (res ++ [(c, v)]) ≤ sizeUnvisited d res := by
  unfold sizeUnvisited
  induction d with
  | nil => simp
  | cons e rest ih =>
    simp only [List.map_cons, List.sum_cons]
    have hhead : (if alookup (res ++ [(c, v)]) e.1 = none then e.2.length else 0) ≤
        (if alookup res e.1 = none then e.2.length else 0) := by
      cases hr : alookup res e.1 with
      | none => split <;> simp
      | some w =>
        have happ : alookup (res ++ [(c, v)]) e.1 = some w := alookup_append_some _ hr
        simp [happ]
    omega

theorem sizeUnvisited_insert (d : List (String × List String)) (res : List (String × Nat))
    (c : String) (v : Nat) (hres : alookup res c = none) :
    sizeUnvisited d (res ++ [(c, v)]) + ((alookup d c).getD []).length ≤
      sizeUnvisited d res := by
  induction d with
  | nil => simp [sizeUnvisited, alookup]
  | cons e rest ih =>
    obtain ⟨k, l⟩ := e
    unfold sizeUnvisited
    simp only [List.map_cons, List.sum_cons]
    by_cases hk : k = c
    · subst hk
      have hh : alookup ((k, l) :: rest) k = some l := by simp [alookup]
      rw [hh]
      simp only [Option.getD_some]
      rw [if_neg (by rw [alookup_append_single_self hres]; simp), if_pos hres]
      have hmono := sizeUnvisited_mono rest res k v
      unfold sizeUnvisited at hmono
      omega
    · have hh : alookup ((k, l) :: rest) c = alookup rest c := by simp [alookup, hk]
      rw [hh]
      have hne : alookup (res ++ [(c, v)]) k = alookup res k :=
        alookup_append_single_ne fun h => hk h.symm
      rw [hne]
      unfold sizeUnvisited at ih
      omega

/-! Correctness of `total_orbits` on built acyclic maps: the loop computes
exactly the mapping `node ↦ depth` for nodes reachable from `root` along
child edges. -/

theorem totalOrbitsAux_correct {m₀ : Map} (inv : BuiltInv m₀) (hac : Acyclic m₀)
    (root : String) :
    ∀ (fuel : Nat) (m : Map) (result : List (String × Nat)) (stk : List String),
      MapExt m m₀ →
      alookup result root = some 0 →
      (∀ x d, alookup result x = some d → ChildReach m₀ root x d) →
      (∀ x ∈ stk, ∃ p d, alookup m₀.parents x = some p ∧ alookup result p = some d) →
      (∀ x d, ChildReach m₀ root x d →
        (∃ d', alookup result x = some d') ∨ ∃ y ∈ stk, ∃ k, ChildReach m₀ y x k) →
      (∀ x ∈ stk, alookup result x = none) →
      stk.Nodup →
      (∀ x d', alookup result x = some d' →
        x = root ∨ ∃ p dp, alookup m₀.parents x = some p ∧ alookup result p = some dp) →
      stk.length + sizeUnvisited m.children result + 1 ≤ fuel →
      ∃ res m', totalOrbitsAux fuel m result stk = (some res, m') ∧
        ∀ x d, (alookup res x = some d ↔ ChildReach m₀ root x d) := by
  intro fuel
  induction fuel with
  | zero =>
    intro m result stk _ _ _ _ _ _ _ _ hfuel
    omega
  | succ fuel ih =>
    intro m result stk hext hroot hsound hqsound hcomp hfresh hnd hclosed hfuel
    cases stk with
    | nil =>
      refine ⟨result, m, rfl, ?_⟩
      intro x d
      constructor
      · exact hsound x d
      · intro hcr
        rcases hcomp x d hcr with ⟨d', hd'⟩ | ⟨y, hy, -⟩
        · have hcr' := hsound x d' hd'
          have heq := childReach_unique inv hac hcr' hcr
          rwa [heq] at hd'
        · exact absurd hy (List.not_mem_nil y)
    | cons current rest =>
      rw [totalOrbitsAux]
      have hcur_none : alookup result current = none := hfresh current (by simp)
      rw [if_neg (by rw [hcur_none]; simp)]
      obtain ⟨p, dp, hp, hdp⟩ := hqsound current (by simp)
      rw [hext.1]
      simp only [hp, hdp]
      have hcur_reach : ChildReach m₀ root current (dp + 1) :=
        ChildReach.step (hsound p dp hdp) ((inv.consist p current).mpr hp)
      have hcur_ne_self : current ∉ childrenGet m₀ current := by
        intro hmem
        have hpc := (inv.consist current current).mp hmem
        exact hac current 1 (by omega) (by simp [parentIter, hpc])
      have hchild_fresh : ∀ x ∈ childrenGet m₀ current, alookup result x = none := by
        intro x hx
        have hpx := (inv.consist current x).mp hx
        by_contra hxr
        cases hxr' : alookup result x with
        | none => exact hxr hxr'
        | some dx =>
          rcases hclosed x dx hxr' with hxroot | ⟨q, dq, hq, hdq⟩
          · rw [hxroot] at hx
            have hrr : ChildReach m₀ root root (dp + 2) := ChildReach.step hcur_reach hx
            have := childReach_unique inv hac hrr ChildReach.refl
            omega
          · have hqc : q = current := Option.some.inj (hq.symm.trans hpx)
            rw [hqc] at hdq
            rw [hdq] at hcur_none
            exact Option.noConfusion hcur_none
      have hchild_ne : ∀ x ∈ childrenGet m₀ current, x ≠ current := by
        intro x hx hxc
        rw [hxc] at hx
        exact hcur_ne_self hx
      have hrest_ne : ∀ x ∈ rest, x ≠ current := by
        intro x hx hxc
        rw [hxc] at hx
        exact (List.nodup_cons.mp hnd).1 hx
      have hrest_not_child : ∀ x ∈ rest, x ∉ childrenGet m₀ current := by
        intro x hx hmem
        obtain ⟨q, dq, hq, hdq⟩ := hqsound x (by simp [hx])
        have hpx := (inv.consist current x).mp hmem
        have hqc : q = current := Option.some.inj (hq.symm.trans hpx)
        rw [hqc] at hdq
        rw [hdq] at hcur_none
        exact Option.noConfusion hcur_none
      have h1 : MapExt (withChildren m (childrenTouch m.children current)) m₀ :=
        mapExt_trans (mapExt_touch m current) hext
      have h2 : alookup (result ++ [(current, dp + 1)]) root = some 0 :=
        alookup_append_some _ hroot
      have h3 : ∀ x d, alookup (result ++ [(current, dp + 1)]) x = some d →
          ChildReach m₀ root x d := by
        intro x d hx
        rcases alookup_append_single hx with hold | ⟨-, rfl, rfl⟩
        · exact hsound x d hold
        · exact hcur_reach
      have h4 : ∀ x ∈ (childrenGet m current).reverse ++ rest,
          ∃ q dq, alookup m₀.parents x = some q ∧
            alookup (result ++ [(current, dp + 1)]) q = some dq := by
        intro x hx
        rcases List.mem_append.mp hx with hxl | hxr
        · rw [List.mem_reverse, hext.2 current] at hxl
          exact ⟨current, dp + 1, (inv.consist current x).mp hxl,
            alookup_append_single_self hcur_none⟩
        · obtain ⟨q, dq, hq, hdq⟩ := hqsound x (by simp [hxr])
          exact ⟨q, dq, hq, alookup_append_some _ hdq⟩
      have h5 : ∀ x d, ChildReach m₀ root x d →
          (∃ d', alookup (result ++ [(current, dp + 1)]) x = some d') ∨
            ∃ y ∈ (childrenGet m current).reverse ++ rest, ∃ k, ChildReach m₀ y x k := by
        intro x d hcr
        rcases hcomp x d hcr with ⟨d', hd'⟩ | ⟨y, hy, k, hyk⟩
        · exact Or.inl ⟨d', alookup_append_some _ hd'⟩
        · rcases List.mem_cons.mp hy with hyc | hyr
          · rw [hyc] at hyk
            cases k with
            | zero =>
              have hxc := childReach_zero hyk
              rw [hxc]
              exact Or.inl ⟨dp + 1, alookup_append_single_self hcur_none⟩
            | succ k =>
              obtain ⟨c, hcm, hck⟩ := childReach_head hyk
              refine Or.inr ⟨c, ?_, k, hck⟩
              rw [List.mem_append, List.mem_reverse, hext.2 current]
              exact Or.inl hcm
          · exact Or.inr ⟨y, by simp [hyr], k, hyk⟩
      have h6 : ∀ x ∈ (childrenGet m current).reverse ++ rest,
          alookup (result ++ [(current, dp + 1)]) x = none := by
        intro x hx
        rcases List.mem_append.mp hx with hxl | hxr
        · rw [List.mem_reverse, hext.2 current] at hxl
          rw [alookup_append_single_ne (Ne.symm (hchild_ne x hxl))]
          exact hchild_fresh x hxl
        · rw [alookup_append_single_ne (Ne.symm (hrest_ne x hxr))]
          exact hfresh x (by simp [hxr])
      have h7 : ((childrenGet m current).reverse ++ rest).Nodup := by
        rw [List.nodup_append]
        refine ⟨?_, (List.nodup_cons.mp hnd).2, ?_⟩
        · rw [hext.2 current, List.nodup_reverse]
          exact inv.listNodup current
        · intro x hxl hxr
          rw [List.mem_reverse, hext.2 current] at hxl
          exact hrest_not_child x hxr hxl
      have h8 : ∀ x d', alookup (result ++ [(current, dp + 1)]) x = some d' →
          x = root ∨ ∃ q dq, alookup m₀.parents x = some q ∧
            alookup (result ++ [(current, dp + 1)]) q = some dq := by
        intro x d' hx
        rcases alookup_append_single hx with hold | ⟨-, rfl, -⟩
        · rcases hclosed x d' hold with hxr | ⟨q, dq, hq, hdq⟩
          · exact Or.inl hxr
          · exact Or.inr ⟨q, dq, hq, alookup_append_some _ hdq⟩
        · exact Or.inr ⟨p, dp, hp, alookup_append_some _ hdp⟩
      have h9 : ((childrenGet m current).reverse ++ rest).length +
          sizeUnvisited (childrenTouch m.children current)
            (result ++ [(current, dp + 1)]) + 1 ≤ fuel := by
        have hins := sizeUnvisited_insert m.children result current (dp + 1) hcur_none
        have htch : sizeUnvisited (childrenTouch m.children current)
            (result ++ [(current, dp + 1)]) =
            sizeUnvisited m.children (result ++ [(current, dp + 1)]) :=
          sizeUnvisited_touch m.children current _
        have hlen : ((childrenGet m current).reverse ++ rest).length =
            (childrenGet m current).length + rest.length := by
          simp
        have hcg : ((alookup m.children current).getD []).length =
            (childrenGet m current).length := rfl
        simp only [List.length_cons] at hfuel
        omega
      exact ih _ _ _ h1 h2 h3 h4 h5 h6 h7 h8 h9

theorem total_orbits_correct {m : Map} (hb : Built m) (hac : Acyclic m) (root : String) :
    ∃ res m', m.total_orbits root = (some res, m') ∧
      ∀ x d, (alookup res x = some d ↔ ChildReach m root x d) := by
  have inv := built_inv hb
  unfold Map.total_orbits
  refine totalOrbitsAux_correct inv hac root (totalOrbitsFuel m root) _ _ _
    (mapExt_touch m root) (by simp [alookup]) ?_ ?_ ?_ ?_ ?_ ?_ ?_
  · intro x d h
    by_cases hx : root = x
    · have hd : 0 = d := by simpa [alookup, hx] using h
      rw [← hx, ← hd]
      exact ChildReach.refl
    · simp [alookup, hx] at h
  · intro x hx
    rw [List.mem_reverse] at hx
    exact ⟨root, 0, (inv.consist root x).mp hx, by simp [alookup]⟩
  · intro x d hcr
    cases d with
    | zero =>
      have hx := childReach_zero hcr
      exact Or.inl ⟨0, by simp [alookup, hx.symm]⟩
    | succ d =>
      obtain ⟨c, hcm, hck⟩ := childReach_head hcr
      exact Or.inr ⟨c, List.mem_reverse.mpr hcm, d, hck⟩
  · intro x hx
    rw [List.mem_reverse] at hx
    have hpx := (inv.consist root x).mp hx
    by_cases hrx : root = x
    · exfalso
      rw [← hrx] at hpx
      exact hac root 1 (by omega) (by simp [parentIter, hpx])
    · simp [alookup, hrx]
  · exact List.nodup_reverse.mpr (inv.listNodup root)
  · intro x d' h
    by_cases hx : root = x
    · exact Or.inl hx.symm
    · simp [alookup, hx] at h
  · have h1 : sizeUnvisited (withChildren m (childrenTouch m.children root)).children
        [(root, 0)] = sizeUnvisited m.children [(root, 0)] :=
      sizeUnvisited_touch m.children root [(root, 0)]
    have h2 := sizeUnvisited_le m.children [(root, 0)]
    unfold totalOrbitsFuel
    simp only [List.length_reverse]
    omega

theorem parseFold_built {orbits : List String} :
    ∀ {m m' : Map}, Built m → parseFold orbits m = some m' → Built m' := by
  induction orbits with
  | nil =>
    intro m m' hb h
    rw [parseFold] at h
    rwa [← Option.some.inj h]
  | cons orbit rest ih =>
    intro m m' hb h
    rw [parseFold] at h
    split at h
    · split at h
      · exact absurd h (by simp)
      · rename_i m₀ hadd
        exact ih (Built.add hb hadd) h
    · exact absurd h (by simp)

theorem built_exampleMap : Built exampleMap :=
  parseFold_built Built.empty (by decide : parse_map exampleLines = some exampleMap)

theorem built_exampleMap2 : Built exampleMap2 :=
  Built.add
    (Built.add built_exampleMap
      (by decide : exampleMap.add "K" "YOU" =
        some ((exampleMap.add "K" "YOU").getD Map.empty)))
    (by decide : ((exampleMap.add "K" "YOU").getD Map.empty).add "I" "SAN" =
      some exampleMap2)

theorem built_pairMap : Built pairMap :=
  parseFold_built Built.empty (by decide : parse_map ["COM)B"] = some pairMap)

/-! Characterization of the BFS building blocks of `shortest_path`. -/

theorem alookup_append_none_left {β : Type} {l₁ l₂ : List (String × β)} {x : String}
    (h : alookup (l₁ ++ l₂) x = none) : alookup l₁ x = none := by
  cases h₁ : alookup l₁ x with
  | none => rfl
  | some v =>
    rw [alookup_append_some _ h₁] at h
    exact Option.noConfusion h

theorem visitFold_spec (cp : List String) :
    ∀ (conns : List String) (paths : Paths) (queue : List String),
      ∃ q', visitFold cp conns paths queue =
          (paths ++ q'.map fun y => (y, cp), queue ++ q') ∧
        (∀ x ∈ q', x ∈ conns ∧ alookup paths x = none) ∧
        (∀ x ∈ conns, (alookup (paths ++ q'.map fun y => (y, cp)) x).isSome) ∧
        q'.Nodup := by
  intro conns
  induction conns with
  | nil =>
    intro paths queue
    exact ⟨[], by simp [visitFold], by simp, by simp, List.nodup_nil⟩
  | cons other rest ih =>
    intro paths queue
    rw [visitFold]
    cases ho : alookup paths other with
    | some v =>
      rw [if_pos (by simp)]
      obtain ⟨q', heq, hmem, hcov, hnd⟩ := ih paths queue
      refine ⟨q', heq, ?_, ?_, hnd⟩
      · intro x hx
        obtain ⟨hxr, hxn⟩ := hmem x hx
        exact ⟨List.mem_cons_of_mem _ hxr, hxn⟩
      · intro x hx
        rcases List.mem_cons.mp hx with rfl | hxr
        · rw [alookup_append_some _ ho]
          rfl
        · exact hcov x hxr
    | none =>
      rw [if_neg (by simp)]
      obtain ⟨q₁, heq, hmem, hcov, hnd⟩ := ih (paths ++ [(other, cp)]) (queue ++ [other])
      have hassoc : paths ++ ((other :: q₁).map fun y => (y, cp)) =
          (paths ++ [(other, cp)]) ++ q₁.map fun y => (y, cp) := by
        simp
      refine ⟨other :: q₁, ?_, ?_, ?_, ?_⟩
      · rw [heq, hassoc]
        simp
      · intro x hx
        rcases List.mem_cons.mp hx with rfl | hxq
        · exact ⟨List.mem_cons_self _ _, ho⟩
        · obtain ⟨hxr, hxn⟩ := hmem x hxq
          exact ⟨List.mem_cons_of_mem _ hxr, alookup_append_none_left hxn⟩
      · intro x hx
        rw [hassoc]
        rcases List.mem_cons.mp hx with rfl | hxr
        · rw [alookup_append_some _ (alookup_append_single_self ho)]
          rfl
        · exact hcov x hxr
      · refine List.nodup_cons.mpr ⟨?_, hnd⟩
        intro hoq
        have hn := (hmem other hoq).2
        exact Option.noConfusion ((alookup_append_single_self ho).symm.trans hn)

theorem connList_mem_allNodes {m : Map} {x y : String} (h : y ∈ connList m x) :
    y ∈ allNodes m := by
  unfold connList Map.connections at h
  rw [List.mem_append] at h
  unfold allNodes
  rcases h with hp | hc
  · cases hpar : alookup m.parents x with
    | none =>
      rw [hpar] at hp
      simp at hp
    | some p =>
      rw [hpar] at hp
      simp at hp
      have := alookup_mem hpar
      rw [hp]
      have hmem : p ∈ m.parents.map Prod.snd := by
        exact List.mem_map_of_mem Prod.snd this
      simp [hmem]
  · unfold childrenGet at hc
    cases hch : alookup m.children x with
    | none =>
      rw [hch] at hc
      simp at hc
    | some l =>
      rw [hch] at hc
      simp at hc
      have hlm : l ∈ m.children.map Prod.snd := List.mem_map_of_mem Prod.snd (alookup_mem hch)
      have : y ∈ (m.children.map Prod.snd).flatten := by
        rw [List.mem_flatten]
        exact ⟨l, hlm, hc⟩
      simp [this]

theorem updEmpty_lookup :
    ∀ (conns : List String) (paths : Paths) (x : String),
      alookup (updEmpty paths conns) x =
        if x ∈ conns then some [] else alookup paths x := by
  intro conns
  induction conns with
  | nil =>
    intro paths x
    simp [updEmpty]
  | cons n rest ih =>
    intro paths x
    rw [updEmpty]
    by_cases hn : (alookup paths n).isSome
    · rw [if_pos hn, ih]
      by_cases hxr : x ∈ rest
      · rw [if_pos hxr, if_pos (List.mem_cons_of_mem n hxr)]
      · rw [if_neg hxr, alookup_updValue]
        by_cases hxn : n = x
        · rw [if_pos hxn, if_pos (by rw [← hxn]; exact List.mem_cons_self n rest)]
          cases hv : alookup paths x with
          | none =>
            rw [← hxn] at hv
            rw [hv] at hn
            exact absurd hn (by simp)
          | some v => rfl
        · have hnm : x ∉ n :: rest := by
            intro hmem
            rcases List.mem_cons.mp hmem with h1 | h2
            · exact hxn h1.symm
            · exact hxr h2
          rw [if_neg hxn, if_neg hnm]
    · rw [if_neg hn, ih]
      by_cases hxr : x ∈ rest
      · rw [if_pos hxr, if_pos (List.mem_cons_of_mem n hxr)]
      · rw [if_neg hxr]
        by_cases hxn : n = x
        · have hnone : alookup paths n = none := by
            cases hv : alookup paths n with
            | none => rfl
            | some v =>
              rw [hv] at hn
              exact absurd hn (by simp)
          rw [← hxn, alookup_append_single_self hnone,
            if_pos (List.mem_cons_self n rest)]
        · have hnm : x ∉ n :: rest := by
            intro hmem
            rcases List.mem_cons.mp hmem with h1 | h2
            · exact hxn h1.symm
            · exact hxr h2
          rw [alookup_append_single_ne hxn, if_neg hnm]

theorem measure_drop (uniF : Finset String) (keys q' : List String)
    (hnd : q'.Nodup) (hsub : ∀ x ∈ q', x ∈ uniF) (hfresh : ∀ x ∈ q', x ∉ keys) :
    (uniF \ (keys ++ q').toFinset).card + q'.length ≤ (uniF \ keys.toFinset).card := by
  have hq'sub : q'.toFinset ⊆ uniF \ keys.toFinset := by
    intro x hx
    rw [List.mem_toFinset] at hx
    rw [Finset.mem_sdiff]
    exact ⟨hsub x hx, by rw [List.mem_toFinset]; exact hfresh x hx⟩
  have heq : uniF \ (keys ++ q').toFinset = (uniF \ keys.toFinset) \ q'.toFinset := by
    rw [List.toFinset_append]
    ext a
    simp only [Finset.mem_sdiff, Finset.mem_union]
    tauto
  rw [heq, Finset.card_sdiff hq'sub, List.toFinset_card_of_nodup hnd]
  have hle := Finset.card_le_card hq'sub
  rw [List.toFinset_card_of_nodup hnd] at hle
  omega

theorem alookup_map_const_mem {cp : List String} {q' : List String} {x : String}
    (h : (alookup (q'.map fun y => (y, cp)) x).isSome) : x ∈ q' := by
  induction q' with
  | nil => simp [alookup] at h
  | cons a rest ih =>
    by_cases hax : a = x
    · rw [hax]
      exact List.mem_cons_self _ _
    · simp only [List.map_cons, alookup, if_neg hax] at h
      exact List.mem_cons_of_mem _ (ih h)

/-- One `visit` call preserves the basic state invariants of the search (for
arbitrary maps): the queue stays inside the paths dict, the paths keys stay
inside the candidate universe and reachable from `src`, the queue stays
duplicate-free, recorded entries persist, new queue elements were fresh, and
the termination measure does not increase. -/
theorem visit_step_weak (m₀ : Map) (src : String) {m : Map} (hext : MapExt m m₀)
    {paths : Paths} {queue2 : List String} {current : String} {p : List String}
    (hp : alookup paths current = some p)
    (hq : ∀ x ∈ queue2, (alookup paths x).isSome)
    (huni : ∀ x, (alookup paths x).isSome → x ∈ uniList m₀ src)
    (hnd : queue2.Nodup)
    (hreach : ∀ y, (alookup paths y).isSome → StepReach m₀ src y) :
    ∃ q', visitFold (p ++ [current]) (connList m current) paths queue2 =
        (paths ++ q'.map fun y => (y, p ++ [current]), queue2 ++ q') ∧
      (∀ x ∈ queue2 ++ q',
        (alookup (paths ++ q'.map fun y => (y, p ++ [current])) x).isSome) ∧
      (∀ x, (alookup (paths ++ q'.map fun y => (y, p ++ [current])) x).isSome →
        x ∈ uniList m₀ src) ∧
      (queue2 ++ q').Nodup ∧
      (∀ y, (alookup (paths ++ q'.map fun y => (y, p ++ [current])) y).isSome →
        StepReach m₀ src y) ∧
      (∀ x pv, alookup paths x = some pv →
        alookup (paths ++ q'.map fun y => (y, p ++ [current])) x = some pv) ∧
      (∀ x ∈ q', alookup paths x = none) ∧
      (queue2 ++ q').length +
          ((uniList m₀ src).toFinset \
            ((paths ++ q'.map fun y => (y, p ++ [current])).map Prod.fst).toFinset).card ≤
        queue2.length +
          ((uniList m₀ src).toFinset \ (paths.map Prod.fst).toFinset).card := by
  obtain ⟨q', hvf, hmem, hcov, hndq⟩ :=
    visitFold_spec (p ++ [current]) (connList m current) paths queue2
  have hconn : connList m current = connList m₀ current := connList_ext hext current
  have hkeys : (paths ++ q'.map fun y => (y, p ++ [current])).map Prod.fst =
      paths.map Prod.fst ++ q' := by
    simp only [List.map_append, List.map_map]
    have hid : (Prod.fst ∘ fun y : String => (y, p ++ [current])) = id := by
      funext y
      rfl
    rw [hid, List.map_id]
  have hfresh : ∀ x ∈ q', alookup paths x = none := fun x hx => (hmem x hx).2
  have hinc : ∀ x ∈ q', x ∈ connList m₀ current := by
    intro x hx
    rw [← hconn]
    exact (hmem x hx).1
  have hsome_mono : ∀ x pv, alookup paths x = some pv →
      alookup (paths ++ q'.map fun y => (y, p ++ [current])) x = some pv :=
    fun x pv h => alookup_append_some _ h
  have hnew_mem : ∀ x,
      (alookup (paths ++ q'.map fun y => (y, p ++ [current])) x).isSome →
      (alookup paths x).isSome ∨ x ∈ q' := by
    intro x hx
    cases hpx : alookup paths x with
    | some v => exact Or.inl rfl
    | none =>
      rw [alookup_append_none _ hpx] at hx
      exact Or.inr (alookup_map_const_mem hx)
  refine ⟨q', hvf, ?_, ?_, ?_, ?_, hsome_mono, hfresh, ?_⟩
  · intro x hx
    rcases List.mem_append.mp hx with hxq | hxq
    · cases hpx : alookup paths x with
      | some v =>
        rw [hsome_mono x v hpx]
        rfl
      | none =>
        have hs := hq x hxq
        rw [hpx] at hs
        exact absurd hs (by simp)
    · exact hcov x ((hmem x hxq).1)
  · intro x hx
    rcases hnew_mem x hx with h1 | h2
    · exact huni x h1
    · exact List.mem_cons_of_mem src (connList_mem_allNodes (hinc x h2))
  · rw [List.nodup_append]
    refine ⟨hnd, hndq, ?_⟩
    intro x hxq hxq'
    have h1 := hq x hxq
    rw [hfresh x hxq'] at h1
    exact absurd h1 (by simp)
  · intro y hy
    rcases hnew_mem y hy with h1 | h2
    · exact hreach y h1
    · have hcur : StepReach m₀ src current := hreach current (by rw [hp]; rfl)
      exact Relation.ReflTransGen.tail hcur (hinc y h2)
  · rw [hkeys]
    have hdrop := measure_drop (uniList m₀ src).toFinset (paths.map Prod.fst) q' hndq
      (fun x hx => by
        rw [List.mem_toFinset]
        exact List.mem_cons_of_mem src (connList_mem_allNodes (hinc x hx)))
      (fun x hx => (alookup_eq_none paths x).mp (hfresh x hx))
    simp only [List.length_append]
    omega

/-- If `dst` is unreachable from `src`, or already recorded in `paths` but
outside the deque, the `while` loop drains the deque and hits the
`IndexError` of `popleft` on an empty deque. -/
theorem spLoop_drains (m₀ : Map) (src dst : String) :
    ∀ (fuel : Nat) (m : Map) (paths : Paths) (queue : List String),
      MapExt m m₀ →
      (∀ x ∈ queue, (alookup paths x).isSome) →
      (∀ x, (alookup paths x).isSome → x ∈ uniList m₀ src) →
      queue.Nodup →
      (∀ y, (alookup paths y).isSome → StepReach m₀ src y) →
      (¬ StepReach m₀ src dst ∨ ((alookup paths dst).isSome ∧ dst ∉ queue)) →
      queue.length + ((uniList m₀ src).toFinset \ (paths.map Prod.fst).toFinset).card + 1 ≤
        fuel →
      (spLoop fuel m paths queue dst).1 = SPOutcome.emptyQueueError := by
  intro fuel
  induction fuel with
  | zero =>
    intro m paths queue _ _ _ _ _ _ hfuel
    omega
  | succ fuel ih =>
    intro m paths queue hext hq huni hnd hreach hdst hfuel
    cases queue with
    | nil => rfl
    | cons current rest =>
      rw [spLoop]
      have hndst : dst ∉ current :: rest := by
        rcases hdst with hunreach | ⟨hsome, hnq⟩
        · intro hmem
          exact hunreach (hreach dst (hq dst hmem))
        · exact hnq
      rw [if_neg hndst]
      have hcur := hq current (by simp)
      cases hp : alookup paths current with
      | none =>
        rw [hp] at hcur
        exact absurd hcur (by simp)
      | some p =>
        rw [visitNode_some hp]
        obtain ⟨q', hvf, hq', huni', hnd', hreach', hmono, hsrcq, hmeas⟩ :=
          visit_step_weak m₀ src hext hp (fun x hx => hq x (List.mem_cons_of_mem _ hx))
            huni (List.nodup_cons.mp hnd).2 hreach
        rw [hvf]
        have hext' : MapExt (m.connections current).2 m₀ :=
          mapExt_trans (connections_snd_ext m current) hext
        have hdst' : ¬ StepReach m₀ src dst ∨
            ((alookup (paths ++ q'.map fun y => (y, p ++ [current])) dst).isSome ∧
              dst ∉ rest ++ q') := by
          rcases hdst with hunreach | ⟨hsome, hnq⟩
          · exact Or.inl hunreach
          · refine Or.inr ⟨?_, ?_⟩
            · cases hv : alookup paths dst with
              | none =>
                rw [hv] at hsome
                exact absurd hsome (by simp)
              | some pv =>
                rw [hmono dst pv hv]
                rfl
            · intro hmem
              rcases List.mem_append.mp hmem with h1 | h2
              · exact hndst (List.mem_cons_of_mem _ h1)
              · have hn := hsrcq dst h2
                rw [hn] at hsome
                exact absurd hsome (by simp)
        have hfuel' : (rest ++ q').length +
            ((uniList m₀ src).toFinset \
              (((paths ++ q'.map fun y => (y, p ++ [current]))).map Prod.fst).toFinset).card +
            1 ≤ fuel := by
          simp only [List.length_cons] at hfuel
          omega
        exact ih _ _ _ hext' hq' huni' hnd' hreach' hdst' hfuel'

/-- Running the initial `for node in connections(src): visit(node)` phase
succeeds and preserves the basic state invariants. -/
theorem initPhase_weak (m₀ : Map) (src : String) :
    ∀ (conns : List String) (m : Map) (paths : Paths) (queue : List String),
      MapExt m m₀ →
      (∀ node ∈ conns, (alookup paths node).isSome) →
      (∀ x ∈ queue, (alookup paths x).isSome) →
      (∀ x, (alookup paths x).isSome → x ∈ uniList m₀ src) →
      queue.Nodup →
      (∀ y, (alookup paths y).isSome → StepReach m₀ src y) →
      ∃ paths' queue' m', initPhase m paths queue conns = (some (paths', queue'), m') ∧
        MapExt m' m₀ ∧
        (∀ x ∈ queue', (alookup paths' x).isSome) ∧
        (∀ x, (alookup paths' x).isSome → x ∈ uniList m₀ src) ∧
        queue'.Nodup ∧
        (∀ y, (alookup paths' y).isSome → StepReach m₀ src y) ∧
        (∀ x p, alookup paths x = some p → alookup paths' x = some p) ∧
        (∀ x ∈ queue', x ∈ queue ∨ alookup paths x = none) ∧
        queue'.length +
            ((uniList m₀ src).toFinset \ (paths'.map Prod.fst).toFinset).card ≤
          queue.length +
            ((uniList m₀ src).toFinset \ (paths.map Prod.fst).toFinset).card := by
  intro conns
  induction conns with
  | nil =>
    intro m paths queue hext hconns hq huni hnd hreach
    exact ⟨paths, queue, m, rfl, hext, hq, huni, hnd, hreach,
      fun x p h => h, fun x hx => Or.inl hx, le_refl _⟩
  | cons node rest ih =>
    intro m paths queue hext hconns hq huni hnd hreach
    have hnode := hconns node (by simp)
    cases hp : alookup paths node with
    | none =>
      rw [hp] at hnode
      exact absurd hnode (by simp)
    | some p =>
      rw [initPhase, visitNode_some hp]
      obtain ⟨q', hvf, hq', huni', hnd', hreach', hmono, hsrcq, hmeas⟩ :=
        visit_step_weak m₀ src hext hp hq huni hnd hreach
      rw [hvf]
      obtain ⟨paths2, queue2, m2, hrun, hext2, hq2, huni2, hnd2, hreach2, hmono2,
        hsrcq2, hmeas2⟩ :=
        ih (m.connections node).2 (paths ++ q'.map fun y => (y, p ++ [node]))
          (queue ++ q') (mapExt_trans (connections_snd_ext m node) hext)
          (fun nd hm => by
            have hs := hconns nd (List.mem_cons_of_mem _ hm)
            cases hv : alookup paths nd with
            | none =>
              rw [hv] at hs
              exact absurd hs (by simp)
            | some pv =>
              rw [hmono nd pv hv]
              rfl)
          hq' huni' hnd' hreach'
      refine ⟨paths2, queue2, m2, hrun, hext2, hq2, huni2, hnd2, hreach2, ?_, ?_, ?_⟩
      · intro x pv hpv
        exact hmono2 x pv (hmono x pv hpv)
      · intro x hx
        rcases hsrcq2 x hx with h1 | h2
        · rcases List.mem_append.mp h1 with h3 | h4
          · exact Or.inl h3
          · exact Or.inr (hsrcq x h4)
        · right
          cases hv : alookup paths x with
          | none => rfl
          | some pv =>
            rw [hmono x pv hv] at h2
            exact Option.noConfusion h2
      · omega

/-! In a built acyclic map the duplicate-free adjacency chain between two
nodes is unique: every such chain ascends along parent pointers to a turning
point and then descends, and both parts are determined by their lengths,
which are in turn forced by acyclicity. -/

theorem connList_mem_iff {m : Map} (inv : BuiltInv m) (x y : String) :
    y ∈ connList m x ↔
      alookup m.parents x = some y ∨ alookup m.parents y = some x := by
  unfold connList Map.connections
  rw [List.mem_append]
  cases hp : alookup m.parents x with
  | none =>
    simp only [List.not_mem_nil, false_or]
    rw [inv.consist x y]
    constructor
    · exact Or.inr
    · intro h
      rcases h with h | h
      · exact absurd h (by simp)
      · exact h
  | some p =>
    simp only [List.mem_singleton]
    rw [inv.consist x y]
    constructor
    · intro h
      rcases h with h | h
      · exact Or.inl (by rw [h])
      · exact Or.inr h
    · intro h
      rcases h with h | h
      · exact Or.inl (Option.some.inj h).symm
      · exact Or.inr h

theorem uadj_symm {m : Map} (inv : BuiltInv m) {x y : String} (h : UAdj m x y) :
    UAdj m y x :=
  (connList_mem_iff inv y x).mpr (Or.symm ((connList_mem_iff inv x y).mp h))

theorem uadj_irrefl {m : Map} (inv : BuiltInv m) (hac : Acyclic m) (x : String) :
    ¬ UAdj m x x := by
  intro h
  rcases (connList_mem_iff inv x x).mp h with h1 | h1 <;>
    exact hac x 1 (by omega) (by simp [parentIter, h1])

theorem upChainEnd_iter {m : Map} :
    ∀ {u : List String} {a t : String}, UpChainEnd m a u t →
      parentIter m u.length a = some t := by
  intro u
  induction u with
  | nil =>
    intro a t h
    simpa [parentIter] using congrArg some h
  | cons x rest ih =>
    intro a t h
    obtain ⟨h1, h2⟩ := h
    rw [List.length_cons, parentIter, h1]
    simpa using ih h2

theorem downChainEnd_iter {m : Map} :
    ∀ {d : List String} {t b : String}, DownChainEnd m t d b →
      parentIter m d.length b = some t := by
  intro d
  induction d with
  | nil =>
    intro t b h
    simpa [parentIter] using congrArg some h.symm
  | cons c rest ih =>
    intro t b h
    obtain ⟨h1, h2⟩ := h
    rw [List.length_cons, parentIter_add_right m rest.length 1 b, ih h2]
    simp [parentIter, h1]

theorem upChainEnd_det {m : Map} :
    ∀ {u₁ : List String} {a t₁ : String} {u₂ : List String} {t₂ : String},
      UpChainEnd m a u₁ t₁ → UpChainEnd m a u₂ t₂ → u₁.length = u₂.length →
      u₁ = u₂ ∧ t₁ = t₂ := by
  intro u₁
  induction u₁ with
  | nil =>
    intro a t₁ u₂ t₂ h₁ h₂ hlen
    cases u₂ with
    | nil => exact ⟨rfl, h₁.symm.trans h₂⟩
    | cons x r => simp at hlen
  | cons x r ih =>
    intro a t₁ u₂ t₂ h₁ h₂ hlen
    cases u₂ with
    | nil => simp at hlen
    | cons x₂ r₂ =>
      obtain ⟨hp₁, hu₁⟩ := h₁
      obtain ⟨hp₂, hu₂⟩ := h₂
      have hx : x = x₂ := Option.some.inj (hp₁.symm.trans hp₂)
      rw [← hx] at hu₂
      obtain ⟨hr, ht⟩ := ih hu₁ hu₂ (by simpa using hlen)
      exact ⟨by rw [hx, hr], ht⟩

theorem downChainEnd_det {m : Map} :
    ∀ {d₁ : List String} {t b : String} {d₂ : List String},
      DownChainEnd m t d₁ b → DownChainEnd m t d₂ b → d₁.length = d₂.length →
      d₁ = d₂ := by
  intro d₁
  induction d₁ with
  | nil =>
    intro t b d₂ h₁ h₂ hlen
    cases d₂ with
    | nil => rfl
    | cons c r => simp at hlen
  | cons c₁ r₁ ih =>
    intro t b d₂ h₁ h₂ hlen
    cases d₂ with
    | nil => simp at hlen
    | cons c₂ r₂ =>
      obtain ⟨hp₁, hd₁⟩ := h₁
      obtain ⟨hp₂, hd₂⟩ := h₂
      have hlen' : r₁.length = r₂.length := by simpa using hlen
      have hc : c₁ = c₂ := by
        have i₁ := downChainEnd_iter hd₁
        have i₂ := downChainEnd_iter hd₂
        rw [hlen'] at i₁
        exact Option.some.inj (i₁.symm.trans i₂)
      rw [← hc] at hd₂
      rw [hc, ih hd₁ hd₂ hlen']

theorem upChainEnd_mem {m : Map} :
    ∀ {u : List String} {a t : String}, UpChainEnd m a u t →
      ∀ {w : String} {k : Nat}, 1 ≤ k → k ≤ u.length →
        parentIter m k a = some w → w ∈ u := by
  intro u
  induction u with
  | nil =>
    intro a t _ w k h1 h2 _
    simp only [List.length_nil] at h2
    omega
  | cons x rest ih =>
    intro a t h w k h1 h2 hit
    obtain ⟨hp, hu⟩ := h
    cases k with
    | zero => omega
    | succ k' =>
      rw [parentIter, hp] at hit
      have hit : parentIter m k' x = some w := hit
      cases Nat.eq_zero_or_pos k' with
      | inl h0 =>
        rw [h0] at hit
        have : x = w := by simpa [parentIter] using hit
        rw [← this]
        exact List.mem_cons_self _ _
      | inr hpos =>
        exact List.mem_cons_of_mem _
          (ih hu hpos (by simp only [List.length_cons] at h2; omega) hit)

theorem downChainEnd_mem {m : Map} :
    ∀ {d : List String} {t b : String}, DownChainEnd m t d b →
      ∀ {w : String} {k : Nat}, k < d.length → parentIter m k b = some w → w ∈ d := by
  intro d
  induction d with
  | nil =>
    intro t b _ w k h1 _
    simp only [List.length_nil] at h1
    omega
  | cons c rest ih =>
    intro t b h w k h1 hit
    obtain ⟨hp, hd⟩ := h
    by_cases hk : k < rest.length
    · exact List.mem_cons_of_mem _ (ih hd hk hit)
    · have hkeq : k = rest.length := by
        simp only [List.length_cons] at h1
        omega
      have := downChainEnd_iter hd
      rw [← hkeq] at this
      have : c = w := Option.some.inj (this.symm.trans hit)
      rw [← this]
      exact List.mem_cons_self _ _

theorem parentIter_count_unique {m : Map} (hac : Acyclic m) {b t : String} {j₁ j₂ : Nat}
    (h₁ : parentIter m j₁ b = some t) (h₂ : parentIter m j₂ b = some t) : j₁ = j₂ := by
  rcases Nat.lt_trichotomy j₁ j₂ with h | h | h
  · exact absurd (parentIter_cycle_free hac h₁ h₂ h) not_false
  · exact h
  · exact absurd (parentIter_cycle_free hac h₂ h₁ h) not_false

theorem down_forced {m : Map} (inv : BuiltInv m) :
    ∀ (t : List String) (x a b : String), alookup m.parents x = some a →
      List.Chain' (UAdj m) (x :: t ++ [b]) → (a :: x :: t ++ [b]).Nodup →
      DownChainEnd m a (x :: t ++ [b]) b := by
  intro t
  induction t with
  | nil =>
    intro x a b hp hc hnd
    have hadj : UAdj m x b := by
      simp only [List.cons_append, List.nil_append] at hc
      exact (List.chain'_cons.mp hc).1
    rcases (connList_mem_iff inv x b).mp hadj with h1 | h1
    · exfalso
      have hba : b = a := Option.some.inj (h1.symm.trans hp)
      simp only [List.cons_append, List.nil_append, List.nodup_cons] at hnd
      exact hnd.1 (by simp [hba])
    · exact ⟨hp, h1, rfl⟩
  | cons y t' ih =>
    intro x a b hp hc hnd
    have hc' : List.Chain' (UAdj m) (x :: y :: t' ++ [b]) := by simpa using hc
    have hadj : UAdj m x y := (List.chain'_cons.mp hc').1
    rcases (connList_mem_iff inv x y).mp hadj with h1 | h1
    · exfalso
      have hya : y = a := Option.some.inj (h1.symm.trans hp)
      simp only [List.cons_append, List.nodup_cons] at hnd
      exact hnd.1 (by simp [hya])
    · have hnd' : (x :: y :: t' ++ [b]).Nodup := by
        simp only [List.cons_append] at hnd
        exact (List.nodup_cons.mp hnd).2
      exact ⟨hp, ih y x b h1 (List.chain'_cons.mp hc').2 hnd'⟩

theorem chain_decompose {m : Map} (inv : BuiltInv m) :
    ∀ (l : List String) (a b : String), List.Chain' (UAdj m) (a :: l ++ [b]) →
      (a :: l ++ [b]).Nodup →
      ∃ u d t, l ++ [b] = u ++ d ∧ UpChainEnd m a u t ∧ DownChainEnd m t d b := by
  intro l
  induction l with
  | nil =>
    intro a b hc hnd
    have hadj : UAdj m a b := by
      simp only [List.cons_append, List.nil_append] at hc
      exact (List.chain'_cons.mp hc).1
    rcases (connList_mem_iff inv a b).mp hadj with h1 | h1
    · exact ⟨[b], [], b, by simp, ⟨h1, rfl⟩, rfl⟩
    · exact ⟨[], [b], a, by simp, rfl, ⟨h1, rfl⟩⟩
  | cons x l' ih =>
    intro a b hc hnd
    have hc' : List.Chain' (UAdj m) (a :: x :: l' ++ [b]) := by simpa using hc
    have hadj : UAdj m a x := (List.chain'_cons.mp hc').1
    rcases (connList_mem_iff inv a x).mp hadj with h1 | h1
    · have hnd' : (x :: l' ++ [b]).Nodup := by
        simp only [List.cons_append] at hnd
        exact (List.nodup_cons.mp hnd).2
      obtain ⟨u, d, t, heq, hu, hd⟩ := ih x b (List.chain'_cons.mp hc').2 hnd'
      refine ⟨x :: u, d, t, ?_, ⟨h1, hu⟩, hd⟩
      simp [heq]
    · have hdown := down_forced inv l' x a b h1 (List.chain'_cons.mp hc').2
        (by simpa using hnd)
      exact ⟨[], x :: l' ++ [b], a, by simp, rfl, hdown⟩

theorem turn_lt_absurd {m : Map} (hac : Acyclic m) {src dst : String}
    {u₁ d₁ u₂ d₂ : List String} {t₁ t₂ : String}
    (hu₁ : UpChainEnd m src u₁ t₁) (hd₁ : DownChainEnd m t₁ d₁ dst)
    (hu₂ : UpChainEnd m src u₂ t₂) (hd₂ : DownChainEnd m t₂ d₂ dst)
    (hnd : ((src :: u₂) ++ d₂).Nodup) (hlt : u₁.length < u₂.length) : False := by
  have hk₁ := upChainEnd_iter hu₁
  have hk₂ := upChainEnd_iter hu₂
  have hj₁ := downChainEnd_iter hd₁
  have hj₂ := downChainEnd_iter hd₂
  have hΔ : parentIter m (u₂.length - u₁.length) t₁ = some t₂ := by
    have hsplit := parentIter_add_right m u₁.length (u₂.length - u₁.length) src
    rw [Nat.add_sub_cancel' (le_of_lt hlt)] at hsplit
    rw [hsplit, hk₁] at hk₂
    simpa using hk₂
  have hj₁Δ : parentIter m (d₁.length + (u₂.length - u₁.length)) dst = some t₂ := by
    rw [parentIter_add_right, hj₁]
    simpa using hΔ
  have hj2eq : d₂.length = d₁.length + (u₂.length - u₁.length) :=
    parentIter_count_unique hac hj₂ hj₁Δ
  have hmem₁ : t₁ ∈ src :: u₂ := by
    by_cases h0 : u₁.length = 0
    · rw [h0] at hk₁
      have hs : src = t₁ := by simpa [parentIter] using hk₁
      rw [← hs]
      exact List.mem_cons_self _ _
    · exact List.mem_cons_of_mem src
        (upChainEnd_mem hu₂ (by omega) (by omega) hk₁)
  have hmem₂ : t₁ ∈ d₂ := downChainEnd_mem hd₂ (by omega) hj₁
  rw [List.nodup_append] at hnd
  exact hnd.2.2 hmem₁ hmem₂

theorem nodupChain_unique {m : Map} (inv : BuiltInv m) (hac : Acyclic m)
    {src dst : String} {l₁ l₂ : List String}
    (h₁ : NodupChain m src l₁ dst) (h₂ : NodupChain m src l₂ dst) : l₁ = l₂ := by
  obtain ⟨u₁, d₁, t₁, he₁, hu₁, hd₁⟩ := chain_decompose inv l₁ src dst h₁.1 h₁.2
  obtain ⟨u₂, d₂, t₂, he₂, hu₂, hd₂⟩ := chain_decompose inv l₂ src dst h₂.1 h₂.2
  have hndc₁ : ((src :: u₁) ++ d₁).Nodup := by
    have hn := h₁.2
    rw [show src :: l₁ ++ [dst] = src :: (l₁ ++ [dst]) from rfl, he₁] at hn
    simpa using hn
  have hndc₂ : ((src :: u₂) ++ d₂).Nodup := by
    have hn := h₂.2
    rw [show src :: l₂ ++ [dst] = src :: (l₂ ++ [dst]) from rfl, he₂] at hn
    simpa using hn
  have hueq : u₁.length = u₂.length := by
    rcases Nat.lt_trichotomy u₁.length u₂.length with hlt | heq | hlt
    · exact absurd (turn_lt_absurd hac hu₁ hd₁ hu₂ hd₂ hndc₂ hlt) not_false
    · exact heq
    · exact absurd (turn_lt_absurd hac hu₂ hd₂ hu₁ hd₁ hndc₁ hlt) not_false
  obtain ⟨hu_eq, ht_eq⟩ := upChainEnd_det hu₁ hu₂ hueq
  rw [← ht_eq] at hd₂
  have hdeq_len : d₁.length = d₂.length :=
    parentIter_count_unique hac (downChainEnd_iter hd₁) (downChainEnd_iter hd₂)
  have hd_eq : d₁ = d₂ := downChainEnd_det hd₁ hd₂ hdeq_len
  have hfull : l₁ ++ [dst] = l₂ ++ [dst] := by
    rw [he₁, he₂, hu_eq, hd_eq]
  simpa using congrArg List.dropLast hfull

theorem nodupChain_reverse {m : Map} (inv : BuiltInv m) {src dst : String}
    {l : List String} (h : NodupChain m src l dst) :
    NodupChain m dst l.reverse src := by
  obtain ⟨hc, hnd⟩ := h
  have hrev : (src :: l ++ [dst]).reverse = dst :: l.reverse ++ [src] := by simp
  constructor
  · rw [← hrev]
    rw [List.chain'_reverse]
    exact hc.imp fun a b hab => uadj_symm inv hab
  · rw [← hrev]
    exact List.nodup_reverse.mpr hnd

theorem nodupChain_stepReach {m : Map} :
    ∀ (l : List String) (a b : String), List.Chain' (UAdj m) (a :: l ++ [b]) →
      StepReach m a b := by
  intro l
  induction l with
  | nil =>
    intro a b hc
    simp only [List.cons_append, List.nil_append] at hc
    exact Relation.ReflTransGen.single (List.chain'_cons.mp hc).1
  | cons x l' ih =>
    intro a b hc
    have hc' : List.Chain' (UAdj m) (a :: x :: l' ++ [b]) := by simpa using hc
    exact Relation.ReflTransGen.head (List.chain'_cons.mp hc').1
      (ih x b (List.chain'_cons.mp hc').2)

theorem alookup_map_const_eq {cp : List String} :
    ∀ {q' : List String} {x : String} {v : List String},
      alookup (q'.map fun y => (y, cp)) x = some v → v = cp ∧ x ∈ q' := by
  intro q'
  induction q' with
  | nil =>
    intro x v h
    simp [alookup] at h
  | cons a rest ih =>
    intro x v h
    by_cases hax : a = x
    · simp only [List.map_cons, alookup, if_pos hax] at h
      exact ⟨(Option.some.inj h).symm, by rw [← hax]; exact List.mem_cons_self _ _⟩
    · simp only [List.map_cons, alookup, if_neg hax] at h
      obtain ⟨hv, hm⟩ := ih h
      exact ⟨hv, List.mem_cons_of_mem _ hm⟩

theorem alookup_map_const_self {cp : List String} :
    ∀ {q' : List String} {x : String}, x ∈ q' →
      alookup (q'.map fun y => (y, cp)) x = some cp := by
  intro q'
  induction q' with
  | nil =>
    intro x h
    simp at h
  | cons a rest ih =>
    intro x h
    by_cases hax : a = x
    · simp [List.map_cons, alookup, if_pos hax]
    · rcases List.mem_cons.mp h with h1 | h1
      · exact absurd h1.symm hax
      · simp only [List.map_cons, alookup, if_neg hax]
        exact ih h1

/-- One `visit` call preserves the chain invariants of the search on top of
the weak ones: every recorded entry is (except for `src` itself) a
duplicate-free adjacency chain whose members are all recorded, the newly
discovered nodes receive the path through `current`, and afterwards every
connection of `current` is recorded. -/
theorem visit_step_strong (m₀ : Map) (src : String) {m : Map} (hext : MapExt m m₀)
    {paths : Paths} {queue2 : List String} {current : String} {p : List String}
    (hp : alookup paths current = some p)
    (hA1 : alookup paths src = some [])
    (hA2 : ∀ x p', alookup paths x = some p' → (x = src ∧ p' = []) ∨
      (NodupChain m₀ src p' x ∧ ∀ y ∈ p', (alookup paths y).isSome))
    (hcur : NodupChain m₀ src p current)
    (hcurels : ∀ y ∈ p, (alookup paths y).isSome) :
    ∃ q', visitFold (p ++ [current]) (connList m current) paths queue2 =
        (paths ++ q'.map fun y => (y, p ++ [current]), queue2 ++ q') ∧
      (∀ x p', alookup (paths ++ q'.map fun y => (y, p ++ [current])) x = some p' →
        (x = src ∧ p' = []) ∨
          (NodupChain m₀ src p' x ∧
            ∀ y ∈ p', (alookup (paths ++ q'.map fun y => (y, p ++ [current])) y).isSome)) ∧
      (∀ x ∈ q', alookup (paths ++ q'.map fun y => (y, p ++ [current])) x =
        some (p ++ [current])) ∧
      (∀ z ∈ connList m₀ current,
        (alookup (paths ++ q'.map fun y => (y, p ++ [current])) z).isSome) := by
  obtain ⟨q', hvf, hmem, hcov, hndq⟩ :=
    visitFold_spec (p ++ [current]) (connList m current) paths queue2
  have hconn : connList m current = connList m₀ current := connList_ext hext current
  have hfresh : ∀ x ∈ q', alookup paths x = none := fun x hx => (hmem x hx).2
  have hmono : ∀ x pv, alookup paths x = some pv →
      alookup (paths ++ q'.map fun y => (y, p ++ [current])) x = some pv :=
    fun x pv h => alookup_append_some _ h
  have hqentry : ∀ x ∈ q', alookup (paths ++ q'.map fun y => (y, p ++ [current])) x =
      some (p ++ [current]) := by
    intro x hx
    rw [alookup_append_none _ (hfresh x hx)]
    exact alookup_map_const_self hx
  refine ⟨q', hvf, ?_, hqentry, ?_⟩
  · intro x p' hx
    cases hpx : alookup paths x with
    | some p₀ =>
      rw [hmono x p₀ hpx] at hx
      have hpp : p₀ = p' := Option.some.inj hx
      rw [hpp] at hpx
      rcases hA2 x p' hpx with hl | ⟨hchain, hels⟩
      · exact Or.inl hl
      · refine Or.inr ⟨hchain, ?_⟩
        intro y hy
        cases hvy : alookup paths y with
        | some v =>
          rw [hmono y v hvy]
          rfl
        | none =>
          have := hels y hy
          rw [hvy] at this
          exact absurd this (by simp)
    | none =>
      rw [alookup_append_none _ hpx] at hx
      obtain ⟨hcp, hxq⟩ := alookup_map_const_eq hx
      subst hcp
      have hxconn : x ∈ connList m₀ current := by
        rw [← hconn]
        exact (hmem x hxq).1
      have hxfresh : alookup paths x = none := hpx
      have hxnotin : x ∉ (src :: p) ++ [current] := by
        intro hmem'
        rcases List.mem_append.mp hmem' with h1 | h1
        · rcases List.mem_cons.mp h1 with h2 | h2
          · rw [h2, hA1] at hxfresh
            exact Option.noConfusion hxfresh
          · have := hcurels x h2
            rw [hxfresh] at this
            exact absurd this (by simp)
        · rw [List.mem_singleton.mp h1, hp] at hxfresh
          exact Option.noConfusion hxfresh
      have hlist : (src :: (p ++ [current])) ++ [x] =
          ((src :: p) ++ [current]) ++ [x] := by
        simp
      refine Or.inr ⟨⟨?_, ?_⟩, ?_⟩
      · show List.Chain' (UAdj m₀) ((src :: (p ++ [current])) ++ [x])
        rw [hlist, List.chain'_append]
        refine ⟨hcur.1, List.chain'_singleton x, ?_⟩
        intro w hw y hy
        rw [List.getLast?_concat] at hw
        simp only [List.head?_cons, Option.mem_def, Option.some.injEq] at hw hy
        rw [← hw, ← hy]
        exact hxconn
      · show ((src :: (p ++ [current])) ++ [x]).Nodup
        rw [hlist, List.nodup_append]
        refine ⟨hcur.2, List.nodup_singleton x, ?_⟩
        intro w hw hwx
        rw [List.mem_singleton.mp hwx] at hw
        exact hxnotin hw
      · intro y hy
        rcases List.mem_append.mp hy with h1 | h1
        · cases hvy : alookup paths y with
          | some v =>
            rw [hmono y v hvy]
            rfl
          | none =>
            have := hcurels y h1
            rw [hvy] at this
            exact absurd this (by simp)
        · rw [List.mem_singleton.mp h1, hmono current p hp]
          rfl
  · intro z hz
    rw [← hconn] at hz
    exact hcov z hz

/-- Entry-point lemma: if `dst` is unreachable from `src`, or is a direct
connection of `src`, then `shortest_path(src, dst)` ends in the empty-deque
`IndexError`. -/
theorem shortest_path_drains (m : Map) (src dst : String)
    (hdst : ¬ StepReach m src dst ∨ dst ∈ connList m src) :
    (m.shortest_path src dst).1 = SPOutcome.emptyQueueError := by
  have hcc : ((m.connections src).2.connections src).1 = connList m src :=
    connList_ext (mapExt_touch m src) src
  have hpaths0 : ∀ x, alookup (updEmpty [(src, [])] (m.connections src).1) x =
      if x ∈ connList m src then some [] else if src = x then some [] else none := by
    intro x
    rw [updEmpty_lookup, show (m.connections src).1 = connList m src from rfl]
    by_cases hx : x ∈ connList m src
    · rw [if_pos hx, if_pos hx]
    · rw [if_neg hx, if_neg hx]
      simp [alookup]
  obtain ⟨paths1, queue1, m3, hrun, hext3, hq1, huni1, hnd1, hreach1, hmono1, hsrc1,
    hmeas1⟩ :=
    initPhase_weak m src ((m.connections src).2.connections src).1
      ((m.connections src).2.connections src).2
      (updEmpty [(src, [])] (m.connections src).1) []
      (mapExt_trans (connections_snd_ext _ src) (connections_snd_ext m src))
      (by
        intro node hnode
        rw [hcc] at hnode
        rw [hpaths0 node, if_pos hnode]
        rfl)
      (by simp)
      (by
        intro x hx
        rw [hpaths0 x] at hx
        by_cases h1 : x ∈ connList m src
        · exact List.mem_cons_of_mem src (connList_mem_allNodes h1)
        · rw [if_neg h1] at hx
          by_cases h2 : src = x
          · rw [← h2]
            exact List.mem_cons_self _ _
          · rw [if_neg h2] at hx
            exact absurd hx (by simp))
      List.nodup_nil
      (by
        intro y hy
        rw [hpaths0 y] at hy
        by_cases h1 : y ∈ connList m src
        · exact Relation.ReflTransGen.single h1
        · rw [if_neg h1] at hy
          by_cases h2 : src = y
          · rw [← h2]
            exact Relation.ReflTransGen.refl
          · rw [if_neg h2] at hy
            exact absurd hy (by simp))
  simp only [Map.shortest_path]
  rw [hrun]
  apply spLoop_drains m src dst (spFuel m src) m3 paths1 queue1 hext3 hq1 huni1 hnd1
    hreach1
  · rcases hdst with hunreach | hconn
    · exact Or.inl hunreach
    · refine Or.inr ⟨?_, ?_⟩
      · have h0 : alookup (updEmpty [(src, [])] (m.connections src).1) dst = some [] := by
          rw [hpaths0 dst, if_pos hconn]
        rw [hmono1 dst [] h0]
        rfl
      · intro hmem
        rcases hsrc1 dst hmem with h1 | h2
        · exact absurd h1 (List.not_mem_nil dst)
        · rw [hpaths0 dst, if_pos hconn] at h2
          exact Option.noConfusion h2
  · have hcard : ((uniList m src).toFinset \
        ((updEmpty [(src, [])] (m.connections src).1).map Prod.fst).toFinset).card ≤
        (uniList m src).length :=
      le_trans (Finset.card_le_card Finset.sdiff_subset) (List.toFinset_card_le _)
    unfold spFuel
    simp only [List.length_nil] at hmeas1
    omega

/-- Reachability in the empty map is trivial. -/
theorem stepReach_empty {x y : String} (h : StepReach Map.empty x y) : x = y := by
  induction h with
  | refl => rfl
  | tail hr hadj ih =>
    exact absurd hadj
      (by simp [UAdj, connList, Map.connections, childrenGet, alookup, Map.empty])

/-- The `while` loop under the full search invariant: if every recorded
entry carries a duplicate-free adjacency chain from `src`, the queue entries
carry nonempty chains, `dst` is either unrecorded or queued, the recorded
set is closed under adjacency except at queued nodes, and `dst` is
reachable, then the loop returns `found p` for a nonempty duplicate-free
chain `p` from `src` to `dst`. -/
theorem spLoop_strong (m₀ : Map) (src dst : String) (hreach : StepReach m₀ src dst) :
    ∀ (fuel : Nat) (m : Map) (paths : Paths) (queue : List String),
      MapExt m m₀ →
      (∀ x, (alookup paths x).isSome → x ∈ uniList m₀ src) →
      queue.Nodup →
      alookup paths src = some [] →
      (∀ x p', alookup paths x = some p' → (x = src ∧ p' = []) ∨
        (NodupChain m₀ src p' x ∧ ∀ y ∈ p', (alookup paths y).isSome)) →
      (∀ x ∈ queue, ∃ p, alookup paths x = some p ∧ p ≠ []) →
      (alookup paths dst = none ∨ dst ∈ queue) →
      (∀ x, (alookup paths x).isSome → x ∈ queue ∨
        ∀ z ∈ connList m₀ x, (alookup paths z).isSome) →
      queue.length + ((uniList m₀ src).toFinset \ (paths.map Prod.fst).toFinset).card + 1 ≤
        fuel →
      ∃ p, (spLoop fuel m paths queue dst).1 = SPOutcome.found p ∧
        NodupChain m₀ src p dst ∧ p ≠ [] := by
  intro fuel
  induction fuel with
  | zero =>
    intro m paths queue _ _ _ _ _ _ _ _ hfuel
    omega
  | succ fuel ih =>
    intro m paths queue hext huni hnd hA1 hA2 hA3 hA5 hclos hfuel
    cases queue with
    | nil =>
      have hdnone : alookup paths dst = none := by
        rcases hA5 with h | h
        · exact h
        · exact absurd h (List.not_mem_nil dst)
      have hrec : ∀ y, StepReach m₀ src y → (alookup paths y).isSome := by
        intro y hy
        induction hy with
        | refl =>
          rw [hA1]
          rfl
        | tail hr hadj ihr =>
          rcases hclos _ ihr with h | h
          · exact absurd h (List.not_mem_nil _)
          · exact h _ hadj
      have hds := hrec dst hreach
      rw [hdnone] at hds
      exact absurd hds (by simp)
    | cons current rest =>
      rw [spLoop]
      by_cases hmem : dst ∈ current :: rest
      · rw [if_pos hmem]
        obtain ⟨p, hp, hpne⟩ := hA3 dst hmem
        rw [hp]
        refine ⟨p, rfl, ?_, hpne⟩
        rcases hA2 dst p hp with ⟨_, hpe⟩ | ⟨hch, _⟩
        · exact absurd hpe hpne
        · exact hch
      · rw [if_neg hmem]
        obtain ⟨pc, hpc, hpcne⟩ := hA3 current (List.mem_cons_self _ _)
        rw [visitNode_some hpc]
        have hcur : NodupChain m₀ src pc current ∧
            ∀ y ∈ pc, (alookup paths y).isSome := by
          rcases hA2 current pc hpc with ⟨_, hpe⟩ | h
          · exact absurd hpe hpcne
          · exact h
        have hq : ∀ x ∈ rest, (alookup paths x).isSome := by
          intro x hx
          obtain ⟨p', hp', _⟩ := hA3 x (List.mem_cons_of_mem _ hx)
          rw [hp']
          rfl
        have hreachAll : ∀ y, (alookup paths y).isSome → StepReach m₀ src y := by
          intro y hy
          cases hv : alookup paths y with
          | none =>
            rw [hv] at hy
            exact absurd hy (by simp)
          | some p' =>
            rcases hA2 y p' hv with ⟨hys, _⟩ | ⟨hch, _⟩
            · rw [hys]
              exact Relation.ReflTransGen.refl
            · exact nodupChain_stepReach p' src y hch.1
        obtain ⟨q₁, hvf₁, hq', huni', hnd', hreach', hmono, hfreshq, hmeas⟩ :=
          visit_step_weak m₀ src hext hpc hq huni (List.nodup_cons.mp hnd).2 hreachAll
        obtain ⟨q₂, hvf₂, hA2', hqent, hcov⟩ :=
          visit_step_strong m₀ src hext hpc hA1 hA2 hcur.1 hcur.2
        have hq12 : q₂ = q₁ := by
          have h := hvf₂.symm.trans hvf₁
          have h2 := congrArg Prod.snd h
          exact List.append_cancel_left h2
        rw [hq12] at hA2' hqent hcov
        rw [hvf₁]
        have hdnone : alookup paths dst = none := by
          rcases hA5 with h | h
          · exact h
          · exact absurd h hmem
        apply ih (m.connections current).2 (paths ++ q₁.map fun y => (y, pc ++ [current]))
          (rest ++ q₁) (mapExt_trans (connections_snd_ext m current) hext) huni' hnd'
          (hmono src [] hA1) hA2'
        · intro x hx
          rcases List.mem_append.mp hx with h1 | h1
          · obtain ⟨p', hp', hne'⟩ := hA3 x (List.mem_cons_of_mem _ h1)
            exact ⟨p', hmono x p' hp', hne'⟩
          · exact ⟨pc ++ [current], hqent x h1, by simp⟩
        · cases hnd2 : alookup (paths ++ q₁.map fun y => (y, pc ++ [current])) dst with
          | none => exact Or.inl rfl
          | some v =>
            rw [alookup_append_none _ hdnone] at hnd2
            exact Or.inr (List.mem_append_right _ (alookup_map_const_eq hnd2).2)
        · intro x hx
          cases hv : alookup paths x with
          | some v =>
            rcases hclos x (by rw [hv]; rfl) with h1 | h1
            · rcases List.mem_cons.mp h1 with h2 | h2
              · right
                intro z hz
                rw [h2] at hz
                exact hcov z hz
              · exact Or.inl (List.mem_append_left _ h2)
            · right
              intro z hz
              have hz' := h1 z hz
              cases hvz : alookup paths z with
              | none =>
                rw [hvz] at hz'
                exact absurd hz' (by simp)
              | some pz =>
                rw [hmono z pz hvz]
                rfl
          | none =>
            rw [alookup_append_none _ hv] at hx
            have hxq : x ∈ q₁ := by
              cases hvv : alookup (q₁.map fun y => (y, pc ++ [current])) x with
              | none =>
                rw [hvv] at hx
                exact absurd hx (by simp)
              | some v => exact (alookup_map_const_eq hvv).2
            exact Or.inl (List.mem_append_right _ hxq)
        · simp only [List.length_cons] at hfuel
          omega

/-- The initial `for node in connections(src): visit(node)` phase under the
full search invariant: it succeeds and establishes the invariant needed by
the `while` loop, with the previous closure defect (the not-yet-visited
connections of `src`) repaired, every newly recorded node placed in the
deque, and the deque only extended. -/
theorem initPhase_strong (m₀ : Map) (src : String) (inv : BuiltInv m₀)
    (hac : Acyclic m₀) :
    ∀ (conns : List String) (m : Map) (paths : Paths) (queue : List String),
      MapExt m m₀ →
      (∀ node ∈ conns, node ∈ connList m₀ src) →
      (∀ node ∈ conns, alookup paths node = some []) →
      (∀ x, (alookup paths x).isSome → x ∈ uniList m₀ src) →
      queue.Nodup →
      alookup paths src = some [] →
      (∀ x p', alookup paths x = some p' → (x = src ∧ p' = []) ∨
        (NodupChain m₀ src p' x ∧ ∀ y ∈ p', (alookup paths y).isSome)) →
      (∀ x ∈ queue, ∃ p, alookup paths x = some p ∧ p ≠ []) →
      (∀ x, (alookup paths x).isSome → x ∈ queue ∨ x ∈ conns ∨
        ∀ z ∈ connList m₀ x, (alookup paths z).isSome) →
      ∃ paths' queue' m', initPhase m paths queue conns = (some (paths', queue'), m') ∧
        MapExt m' m₀ ∧
        (∀ x, (alookup paths' x).isSome → x ∈ uniList m₀ src) ∧
        queue'.Nodup ∧
        alookup paths' src = some [] ∧
        (∀ x p', alookup paths' x = some p' → (x = src ∧ p' = []) ∨
          (NodupChain m₀ src p' x ∧ ∀ y ∈ p', (alookup paths' y).isSome)) ∧
        (∀ x ∈ queue', ∃ p, alookup paths' x = some p ∧ p ≠ []) ∧
        (∀ x, (alookup paths' x).isSome → x ∈ queue' ∨
          ∀ z ∈ connList m₀ x, (alookup paths' z).isSome) ∧
        (∀ x, (alookup paths' x).isSome → (alookup paths x).isSome ∨ x ∈ queue') ∧
        (∃ qext, queue' = queue ++ qext) ∧
        queue'.length + ((uniList m₀ src).toFinset \ (paths'.map Prod.fst).toFinset).card ≤
          queue.length + ((uniList m₀ src).toFinset \ (paths.map Prod.fst).toFinset).card := by
  intro conns
  induction conns with
  | nil =>
    intro m paths queue hext _ _ huni hnd hA1 hA2 hA3 hclos
    refine ⟨paths, queue, m, rfl, hext, huni, hnd, hA1, hA2, hA3, ?_,
      fun x hx => Or.inl hx, ⟨[], (List.append_nil queue).symm⟩, le_refl _⟩
    intro x hx
    rcases hclos x hx with h | h | h
    · exact Or.inl h
    · exact absurd h (List.not_mem_nil x)
    · exact Or.inr h
  | cons node rest ih =>
    intro m paths queue hext hcsrc hc0 huni hnd hA1 hA2 hA3 hclos
    have hpnode : alookup paths node = some [] := hc0 node (List.mem_cons_self _ _)
    rw [initPhase, visitNode_some hpnode]
    have hadj : node ∈ connList m₀ src := hcsrc node (List.mem_cons_self _ _)
    have hsn : src ≠ node := by
      intro h
      rw [← h] at hadj
      exact uadj_irrefl inv hac src hadj
    have hcurnode : NodupChain m₀ src [] node := by
      constructor
      · show List.Chain' (UAdj m₀) (src :: [] ++ [node])
        simp only [List.cons_append, List.nil_append]
        exact List.chain'_pair.mpr hadj
      · show (src :: [] ++ [node]).Nodup
        simp [hsn]
    have hq : ∀ x ∈ queue, (alookup paths x).isSome := by
      intro x hx
      obtain ⟨p', hp', _⟩ := hA3 x hx
      rw [hp']
      rfl
    have hreachAll : ∀ y, (alookup paths y).isSome → StepReach m₀ src y := by
      intro y hy
      cases hv : alookup paths y with
      | none =>
        rw [hv] at hy
        exact absurd hy (by simp)
      | some p' =>
        rcases hA2 y p' hv with ⟨hys, _⟩ | ⟨hch, _⟩
        · rw [hys]
          exact Relation.ReflTransGen.refl
        · exact nodupChain_stepReach p' src y hch.1
    obtain ⟨q₁, hvf₁, hq', huni', hnd', hreach', hmono, hfreshq, hmeas⟩ :=
      visit_step_weak m₀ src hext hpnode hq huni hnd hreachAll
    obtain ⟨q₂, hvf₂, hA2', hqent, hcov⟩ :=
      visit_step_strong m₀ src hext hpnode hA1 hA2 hcurnode
        (fun y hy => absurd hy (List.not_mem_nil y))
    have hq12 : q₂ = q₁ := by
      have h := hvf₂.symm.trans hvf₁
      have h2 := congrArg Prod.snd h
      exact List.append_cancel_left h2
    rw [hq12] at hA2' hqent hcov
    rw [hvf₁]
    obtain ⟨paths2, queue2, m2, hrun, hext2, huni2, hnd2, hA1₂, hA2₂, hA3₂, hclos₂,
      hkey₂, hqext₂, hmeas₂⟩ :=
      ih (m.connections node).2 (paths ++ q₁.map fun y => (y, [] ++ [node]))
        (queue ++ q₁) (mapExt_trans (connections_snd_ext m node) hext)
        (fun nd hm => hcsrc nd (List.mem_cons_of_mem _ hm))
        (fun nd hm => hmono nd [] (hc0 nd (List.mem_cons_of_mem _ hm)))
        huni' hnd' (hmono src [] hA1) hA2'
        (by
          intro x hx
          rcases List.mem_append.mp hx with h1 | h1
          · obtain ⟨p', hp', hne'⟩ := hA3 x h1
            exact ⟨p', hmono x p' hp', hne'⟩
          · exact ⟨[] ++ [node], hqent x h1, by simp⟩)
        (by
          intro x hx
          cases hv : alookup paths x with
          | some v =>
            rcases hclos x (by rw [hv]; rfl) with h1 | h1 | h1
            · exact Or.inl (List.mem_append_left _ h1)
            · rcases List.mem_cons.mp h1 with h2 | h2
              · right
                right
                intro z hz
                rw [h2] at hz
                exact hcov z hz
              · exact Or.inr (Or.inl h2)
            · right
              right
              intro z hz
              have hz' := h1 z hz
              cases hvz : alookup paths z with
              | none =>
                rw [hvz] at hz'
                exact absurd hz' (by simp)
              | some pz =>
                rw [hmono z pz hvz]
                rfl
          | none =>
            rw [alookup_append_none _ hv] at hx
            have hxq : x ∈ q₁ := by
              cases hvv : alookup (q₁.map fun y => (y, [] ++ [node])) x with
              | none =>
                rw [hvv] at hx
                exact absurd hx (by simp)
              | some v => exact (alookup_map_const_eq hvv).2
            exact Or.inl (List.mem_append_right _ hxq))
    obtain ⟨qext, hqe⟩ := hqext₂
    refine ⟨paths2, queue2, m2, hrun, hext2, huni2, hnd2, hA1₂, hA2₂, hA3₂, hclos₂,
      ?_, ⟨q₁ ++ qext, by rw [hqe, List.append_assoc]⟩, by omega⟩
    intro x hx
    rcases hkey₂ x hx with h1 | h1
    · cases hv : alookup paths x with
      | some v => exact Or.inl rfl
      | none =>
        rw [alookup_append_none _ hv] at h1
        right
        have hxq : x ∈ q₁ := by
          cases hvv : alookup (q₁.map fun y => (y, [] ++ [node])) x with
          | none =>
            rw [hvv] at h1
            exact absurd h1 (by simp)
          | some v => exact (alookup_map_const_eq hvv).2
        rw [hqe]
        exact List.mem_append_left _ (List.mem_append_right _ hxq)
    · exact Or.inr h1

/-- Completeness of the search: on a built acyclic map, if `dst` is
reachable from `src`, is not a direct connection of `src` and differs from
`src`, then `shortest_path(src, dst)` returns `found p` where `p` is a
nonempty duplicate-free adjacency chain from `src` to `dst` (which, by
`nodupChain_unique`, is the unique simple path between them, endpoints
excluded). -/
theorem shortest_path_complete {m : Map} (hb : Built m) (hac : Acyclic m)
    {src dst : String} (hreach : StepReach m src dst)
    (hnadj : dst ∉ connList m src) (hnsrc : dst ≠ src) :
    ∃ p, (m.shortest_path src dst).1 = SPOutcome.found p ∧
      NodupChain m src p dst ∧ p ≠ [] := by
  have inv := built_inv hb
  have hcc : ((m.connections src).2.connections src).1 = connList m src :=
    connList_ext (mapExt_touch m src) src
  have hpaths0 : ∀ x, alookup (updEmpty [(src, [])] (m.connections src).1) x =
      if x ∈ connList m src then some [] else if src = x then some [] else none := by
    intro x
    rw [updEmpty_lookup, show (m.connections src).1 = connList m src from rfl]
    by_cases hx : x ∈ connList m src
    · rw [if_pos hx, if_pos hx]
    · rw [if_neg hx, if_neg hx]
      simp [alookup]
  have hA1₀ : alookup (updEmpty [(src, [])] (m.connections src).1) src = some [] := by
    rw [hpaths0 src]
    by_cases h : src ∈ connList m src
    · rw [if_pos h]
    · rw [if_neg h, if_pos rfl]
  have hdst0 : alookup (updEmpty [(src, [])] (m.connections src).1) dst = none := by
    rw [hpaths0 dst, if_neg hnadj, if_neg fun h => hnsrc h.symm]
  obtain ⟨paths1, queue1, m3, hrun, hext3, huni1, hnd1, hA1₁, hA2₁, hA3₁, hclos₁,
    hkey₁, hqext₁, hmeas₁⟩ :=
    initPhase_strong m src inv hac ((m.connections src).2.connections src).1
      ((m.connections src).2.connections src).2
      (updEmpty [(src, [])] (m.connections src).1) []
      (mapExt_trans (connections_snd_ext _ src) (connections_snd_ext m src))
      (by
        intro node hnode
        rw [hcc] at hnode
        exact hnode)
      (by
        intro node hnode
        rw [hcc] at hnode
        rw [hpaths0 node, if_pos hnode])
      (by
        intro x hx
        rw [hpaths0 x] at hx
        by_cases h1 : x ∈ connList m src
        · exact List.mem_cons_of_mem src (connList_mem_allNodes h1)
        · rw [if_neg h1] at hx
          by_cases h2 : src = x
          · rw [← h2]
            exact List.mem_cons_self _ _
          · rw [if_neg h2] at hx
            exact absurd hx (by simp))
      List.nodup_nil
      hA1₀
      (by
        intro x p' hx
        rw [hpaths0 x] at hx
        by_cases h1 : x ∈ connList m src
        · rw [if_pos h1] at hx
          have hpe : p' = [] := (Option.some.inj hx).symm
          have hsn : src ≠ x := by
            intro h
            rw [← h] at h1
            exact uadj_irrefl inv hac src h1
          subst hpe
          right
          refine ⟨⟨?_, ?_⟩, fun y hy => absurd hy (List.not_mem_nil y)⟩
          · show List.Chain' (UAdj m) (src :: [] ++ [x])
            simp only [List.cons_append, List.nil_append]
            exact List.chain'_pair.mpr h1
          · show (src :: [] ++ [x]).Nodup
            simp [hsn]
        · rw [if_neg h1] at hx
          by_cases h2 : src = x
          · rw [if_pos h2] at hx
            exact Or.inl ⟨h2.symm, (Option.some.inj hx).symm⟩
          · rw [if_neg h2] at hx
            exact Option.noConfusion hx)
      (fun x hx => absurd hx (List.not_mem_nil x))
      (by
        intro x hx
        rw [hpaths0 x] at hx
        by_cases h1 : x ∈ connList m src
        · right
          left
          rw [hcc]
          exact h1
        · rw [if_neg h1] at hx
          by_cases h2 : src = x
          · right
            right
            intro z hz
            rw [← h2] at hz
            rw [hpaths0 z, if_pos hz]
            rfl
          · rw [if_neg h2] at hx
            exact absurd hx (by simp))
  have hA5₁ : alookup paths1 dst = none ∨ dst ∈ queue1 := by
    cases hv : alookup paths1 dst with
    | none => exact Or.inl rfl
    | some v =>
      rcases hkey₁ dst (by rw [hv]; rfl) with h1 | h1
      · rw [hdst0] at h1
        exact absurd h1 (by simp)
      · exact Or.inr h1
  have hfuel : queue1.length +
      ((uniList m src).toFinset \ (paths1.map Prod.fst).toFinset).card + 1 ≤
      spFuel m src := by
    have hcard : ((uniList m src).toFinset \
        ((updEmpty [(src, [])] (m.connections src).1).map Prod.fst).toFinset).card ≤
        (uniList m src).length :=
      le_trans (Finset.card_le_card Finset.sdiff_subset) (List.toFinset_card_le _)
    unfold spFuel
    simp only [List.length_nil] at hmeas₁
    omega
  simp only [Map.shortest_path]
  rw [hrun]
  exact spLoop_strong m src dst hreach (spFuel m src) m3 paths1 queue1 hext3 huni1
    hnd1 hA1₁ hA2₁ hA3₁ hA5₁ hclos₁ hfuel

/-- `shortest_path(src, src)` always hits the empty-deque `IndexError`:
`src` is recorded from the start, only previously unrecorded nodes are ever
enqueued, so the deque never contains `src` and eventually drains. -/
theorem shortest_path_self (m : Map) (src : String) :
    (m.shortest_path src src).1 = SPOutcome.emptyQueueError := by
  have hcc : ((m.connections src).2.connections src).1 = connList m src :=
    connList_ext (mapExt_touch m src) src
  have hpaths0 : ∀ x, alookup (updEmpty [(src, [])] (m.connections src).1) x =
      if x ∈ connList m src then some [] else if src = x then some [] else none := by
    intro x
    rw [updEmpty_lookup, show (m.connections src).1 = connList m src from rfl]
    by_cases hx : x ∈ connList m src
    · rw [if_pos hx, if_pos hx]
    · rw [if_neg hx, if_neg hx]
      simp [alookup]
  have hsrc0 : alookup (updEmpty [(src, [])] (m.connections src).1) src = some [] := by
    rw [hpaths0 src]
    by_cases h : src ∈ connList m src
    · rw [if_pos h]
    · rw [if_neg h, if_pos rfl]
  obtain ⟨paths1, queue1, m3, hrun, hext3, hq1, huni1, hnd1, hreach1, hmono1, hsrc1,
    hmeas1⟩ :=
    initPhase_weak m src ((m.connections src).2.connections src).1
      ((m.connections src).2.connections src).2
      (updEmpty [(src, [])] (m.connections src).1) []
      (mapExt_trans (connections_snd_ext _ src) (connections_snd_ext m src))
      (by
        intro node hnode
        rw [hcc] at hnode
        rw [hpaths0 node, if_pos hnode]
        rfl)
      (by simp)
      (by
        intro x hx
        rw [hpaths0 x] at hx
        by_cases h1 : x ∈ connList m src
        · exact List.mem_cons_of_mem src (connList_mem_allNodes h1)
        · rw [if_neg h1] at hx
          by_cases h2 : src = x
          · rw [← h2]
            exact List.mem_cons_self _ _
          · rw [if_neg h2] at hx
            exact absurd hx (by simp))
      List.nodup_nil
      (by
        intro y hy
        rw [hpaths0 y] at hy
        by_cases h1 : y ∈ connList m src
        · exact Relation.ReflTransGen.single h1
        · rw [if_neg h1] at hy
          by_cases h2 : src = y
          · rw [← h2]
            exact Relation.ReflTransGen.refl
          · rw [if_neg h2] at hy
            exact absurd hy (by simp))
  simp only [Map.shortest_path]
  rw [hrun]
  apply spLoop_drains m src src (spFuel m src) m3 paths1 queue1 hext3 hq1 huni1 hnd1
    hreach1
  · refine Or.inr ⟨?_, ?_⟩
    · rw [hmono1 src [] hsrc0]
      rfl
    · intro hmem
      rcases hsrc1 src hmem with h1 | h2
      · exact absurd h1 (List.not_mem_nil src)
      · rw [hsrc0] at h2
        exact Option.noConfusion h2
  · have hcard : ((uniList m src).toFinset \
        ((updEmpty [(src, [])] (m.connections src).1).map Prod.fst).toFinset).card ≤
        (uniList m src).length :=
      le_trans (Finset.card_le_card Finset.sdiff_subset) (List.toFinset_card_le _)
    unfold spFuel
    simp only [List.length_nil] at hmeas1
    omega

/-- The master theorem for `shortest_path` on built acyclic maps: if `l` is
a nonempty duplicate-free adjacency chain from `src` to `dst` (the unique
simple path between them with the endpoints removed), the search returns
exactly `found l`. -/
theorem shortest_path_found {m : Map} (hb : Built m) (hac : Acyclic m)
    {src dst : String} {l : List String} (hchain : NodupChain m src l dst)
    (hne : l ≠ []) : (m.shortest_path src dst).1 = SPOutcome.found l := by
  have inv := built_inv hb
  have hnd2 : src ∉ l ++ [dst] ∧ (l ++ [dst]).Nodup := by
    have h := hchain.2
    rw [List.cons_append] at h
    exact List.nodup_cons.mp h
  have hnsrc : dst ≠ src := by
    intro h
    exact hnd2.1 (List.mem_append_right _ (by rw [h]; exact List.mem_singleton_self src))
  have hnadj : dst ∉ connList m src := by
    intro hadj
    have h0 : NodupChain m src [] dst := by
      constructor
      · show List.Chain' (UAdj m) (src :: [] ++ [dst])
        simp only [List.cons_append, List.nil_append]
        exact List.chain'_pair.mpr hadj
      · show (src :: [] ++ [dst]).Nodup
        simp [Ne.symm hnsrc]
    exact hne (nodupChain_unique inv hac hchain h0)
  have hreach : StepReach m src dst := nodupChain_stepReach l src dst hchain.1
  obtain ⟨p, hfound, hpchain, hpne⟩ := shortest_path_complete hb hac hreach hnadj hnsrc
  rw [hfound, nodupChain_unique inv hac hpchain hchain]

/-- The second reference fixture is acyclic. -/
theorem acyclic_exampleMap2 : Acyclic exampleMap2 :=
  acyclic_of_bounded exampleMap2 (by decide)

/-- The unique simple path between `YOU` and `SAN` in the second reference
fixture, with the endpoints removed. -/
theorem nodupChain_you_san :
    NodupChain exampleMap2 "YOU" ["K", "J", "E", "D", "I"] "SAN" := by
  constructor
  · show List.Chain' (UAdj exampleMap2)
      ("YOU" :: ["K", "J", "E", "D", "I"] ++ ["SAN"])
    simp only [List.cons_append, List.nil_append, List.chain'_cons,
      List.chain'_singleton, and_true]
    refine ⟨?_, ?_, ?_, ?_, ?_, ?_⟩ <;> decide
  · decide

/-- C3: for every map and pair `(parent, child)`, if `child` already has a
recorded parent then `add(parent, child)` fails with an error (the assertion,
modelled as `none`) and never silently succeeds or overwrites; consequently
every node of a map built by insertions has at most one recorded parent. -/
theorem C3_add_rejects_duplicate_parent :
    (∀ (m : Map) (p c : String), (alookup m.parents c).isSome → m.add p c = none) ∧
      ∀ m : Map, Built m → ∀ c p₁ p₂ : String,
        (c, p₁) ∈ m.parents → (c, p₂) ∈ m.parents → p₁ = p₂ := by
  constructor
  · intro m p c hc
    unfold Map.add
    rw [if_pos hc]
  · intro m hb c p₁ p₂ h₁ h₂
    exact nodup_keys_inj (built_inv hb).parentsNodup h₁ h₂

/-- Witness for C3 on the reference fixture: `B` already has parent `COM`,
so adding it again fails, and the recorded parent is unique. -/
theorem C3_witness :
    exampleMap.add "X" "B" = none ∧ ("COM" : String) = "COM" :=
  ⟨C3_add_rejects_duplicate_parent.1 exampleMap "X" "B" (by decide),
    C3_add_rejects_duplicate_parent.2 exampleMap built_exampleMap "B" "COM" "COM"
      (by decide) (by decide)⟩

/-- C8: for every map and `(parent, child)` for which `add` succeeds,
afterwards `connections(child)` includes `parent` and `connections(parent)`
includes `child`. -/
theorem C8_add_connections_roundtrip :
    ∀ (m : Map) (p c : String) (m' : Map), m.add p c = some m' →
      p ∈ (m'.connections c).1 ∧ c ∈ (m'.connections p).1 := by
  intro m p c m' h
  constructor
  · have hp : alookup m'.parents c = some p := by
      rw [alookup_parents_add h c, if_pos rfl]
    simp [Map.connections, hp]
  · have hc : childrenGet m' p = childrenGet m p ++ [c] := by
      rw [childrenGet_add h p, if_pos rfl]
    simp [Map.connections, hc]

/-- Witness for C8: adding a fresh node `Z` under `B` in the fixture. -/
theorem C8_witness :
    "B" ∈ (((exampleMap.add "B" "Z").getD Map.empty).connections "Z").1 ∧
      "Z" ∈ (((exampleMap.add "B" "Z").getD Map.empty).connections "B").1 :=
  C8_add_connections_roundtrip exampleMap "B" "Z" _ (by decide)

/-- C9: if some input line does not contain exactly one `)` separator, then
`parse_map` propagates a parse error (modelled as `none`) to the caller
rather than recovering internally or skipping the line. -/
theorem C9_parse_error_propagates :
    ∀ orbits : List String, (∃ line ∈ orbits, line.data.count ')' ≠ 1) →
      parse_map orbits = none :=
  fun orbits h => parseFold_malformed orbits Map.empty h

/-- Witness for C9: a line with no separator at all. -/
theorem C9_witness : parse_map ["COM)B", "COMB"] = none :=
  C9_parse_error_propagates ["COM)B", "COMB"] ⟨"COMB", by decide, by decide⟩

/-- C4: for every map and every pair `(src, dst)` where `dst` is not
reachable from `src` over the parent/child adjacency used by the search
(membership in `connections`), `shortest_path(src, dst)` terminates and
fails explicitly — the deque drains and `popleft` raises `IndexError`, the
code's "no path" condition — rather than looping forever or returning a
path. -/
theorem C4_unreachable_fails_explicitly :
    ∀ (m : Map) (src dst : String), ¬ StepReach m src dst →
      (m.shortest_path src dst).1 = SPOutcome.emptyQueueError :=
  fun m src dst h => shortest_path_drains m src dst (Or.inl h)

/-- Witness for C4: on the empty map, `B` is unreachable from `A`. -/
theorem C4_witness : (Map.empty.shortest_path "A" "B").1 = SPOutcome.emptyQueueError :=
  C4_unreachable_fails_explicitly Map.empty "A" "B" fun h =>
    absurd (stepReach_empty h) (by decide)

/-- C5: for every map and every pair `(src, dst)` where `dst` is a direct
connection of `src` (its parent or one of its children), `shortest_path`
raises an error — the queue drains without ever containing `dst` and
`popleft` fails — instead of returning the empty intermediate path. -/
theorem C5_adjacent_raises :
    ∀ (m : Map) (src dst : String), dst ∈ (m.connections src).1 →
      (m.shortest_path src dst).1 = SPOutcome.emptyQueueError :=
  fun m src dst h => shortest_path_drains m src dst (Or.inr h)

/-- Witness for C5: `B` is a direct child of `COM` in the fixture. -/
theorem C5_witness :
    (exampleMap.shortest_path "COM" "B").1 = SPOutcome.emptyQueueError :=
  C5_adjacent_raises exampleMap "COM" "B" (by decide)

/-- C6 counterexample: on the empty map, the query `connections("A")`
touches the children defaultdict, inserting key `"A"` with an empty list, so
the map state after the query is not equal to the state before it. -/
theorem C6_counterexample : (Map.empty.connections "A").2 ≠ Map.empty := by decide

/-- C6 amended: the query operations leave the parents dict unchanged and
the children dict observably unchanged — every key reads the same list as
before — although the children defaultdict may gain entries (for missing
keys that were read) holding the empty list. -/
theorem C6_queries_preserve_observable_state :
    ∀ (m : Map) (node root src dst : String),
      MapExt (m.connections node).2 m ∧ MapExt (m.total_orbits root).2 m ∧
        MapExt (m.shortest_path src dst).2 m :=
  fun m node root src dst =>
    ⟨connections_snd_ext m node, total_orbits_snd_ext m root,
      shortest_path_snd_ext m src dst⟩

/-- C10: calling `total_orbits(root)` twice with no intervening insertions
(the second call running on the map state left by the first) yields the
identical result mapping. -/
theorem C10_total_orbits_idempotent :
    ∀ (m : Map) (root : String) (res : List (String × Nat)) (m₁ : Map),
      m.total_orbits root = (some res, m₁) → (m₁.total_orbits root).1 = some res := by
  intro m root res m₁ h
  have hm₁ : m₁ = (m.total_orbits root).2 := by rw [h]
  have hext : MapExt m₁ m := by
    rw [hm₁]
    exact total_orbits_snd_ext m root
  have hsize : childrenSize m₁.children = childrenSize m.children := by
    rw [hm₁]
    unfold Map.total_orbits
    rw [totalOrbitsAux_size]
    exact childrenSize_touch m.children root
  have hfuel : totalOrbitsFuel m₁ root = totalOrbitsFuel m root := by
    unfold totalOrbitsFuel
    rw [hext.2 root, hsize]
  have hstart : childrenGet m₁ root = childrenGet m root := hext.2 root
  have htouch : MapExt (withChildren m₁ (childrenTouch m₁.children root))
      (withChildren m (childrenTouch m.children root)) :=
    mapExt_trans (mapExt_touch m₁ root)
      (mapExt_trans hext (mapExt_symm (mapExt_touch m root)))
  have hgoal := totalOrbitsAux_ext (totalOrbitsFuel m root) htouch [(root, 0)]
    (childrenGet m root).reverse
  unfold Map.total_orbits
  rw [hfuel, hstart, hgoal]
  exact congrArg Prod.fst h

theorem acyclic_exampleMap : Acyclic exampleMap :=
  acyclic_of_bounded exampleMap (by decide)

/-- C1: on every map built by insertions whose parent pointers form a forest
(no cycles), `total_orbits(root)` succeeds and returns a mapping whose
entries are exactly the nodes reachable from `root` along child edges —
`root` itself at depth 0 — each bound to its depth, i.e. `res[x] = d` iff
`x` is reachable from `root` in exactly `d` child edges; in particular on
the 11-edge reference fixture `total_orbits('COM')` maps `D` to 3, `L` to 7,
`COM` to 0, and its values sum to 42. -/
theorem C1_total_orbits_depths :
    (∀ (m : Map) (root : String), Built m → Acyclic m →
      ∃ res m', m.total_orbits root = (some res, m') ∧
        ∀ x d, (alookup res x = some d ↔ ChildReach m root x d)) ∧
      ∃ res m', exampleMap.total_orbits "COM" = (some res, m') ∧
        alookup res "D" = some 3 ∧ alookup res "L" = some 7 ∧
          alookup res "COM" = some 0 ∧ (res.map Prod.snd).sum = 42 := by
  constructor
  · intro m root hb hac
    exact total_orbits_correct hb hac root
  · refine ⟨(exampleMap.total_orbits "COM").1.getD [], (exampleMap.total_orbits "COM").2,
      ?_, ?_, ?_, ?_, ?_⟩ <;> decide

/-- Witness for C1 on the reference fixture, discharging the `Built` and
`Acyclic` hypotheses. -/
theorem C1_witness :
    ∃ res m', exampleMap.total_orbits "COM" = (some res, m') ∧
      ∀ x d, (alookup res x = some d ↔ ChildReach exampleMap "COM" x d) :=
  C1_total_orbits_depths.1 exampleMap "COM" built_exampleMap acyclic_exampleMap

/-- Witness for C10 on the reference fixture. -/
theorem C10_witness :
    ((exampleMap.total_orbits "COM").2.total_orbits "COM").1 =
      some ((exampleMap.total_orbits "COM").1.getD []) :=
  C10_total_orbits_idempotent exampleMap "COM" _ _ (by decide)

/-- C2 counterexample: in the forest built from the single edge `COM)B`,
the nodes `COM` and `B` are distinct and connected (directly), and the
sequence of nodes strictly between them on the shortest path is `[]` — but
`shortest_path("COM", "B")` does not return it: the deque drains and
`popleft` raises `IndexError` instead. -/
theorem C2_counterexample :
    (pairMap.shortest_path "COM" "B").1 = SPOutcome.emptyQueueError ∧
      ∀ l : List String, (pairMap.shortest_path "COM" "B").1 ≠ SPOutcome.found l := by
  constructor
  · decide
  · intro l h
    rw [show (pairMap.shortest_path "COM" "B").1 = SPOutcome.emptyQueueError from
      by decide] at h
    exact SPOutcome.noConfusion h

/-- C2 (amended): for every map built by insertions whose parent pointers
are acyclic (a forest) and every pair of nodes joined by a nonempty
duplicate-free adjacency chain `l` — i.e. `dst` is connected to `src` but
is not `src` itself and not directly adjacent to it — `shortest_path(src,
dst)` returns exactly `l`, the ordered sequence of nodes on the unique
simple (hence shortest) path from `src` to `dst` excluding the endpoints;
for directly adjacent (or equal) endpoints the search instead raises, which
is why the adjacency exclusion is required. In particular, on the 11-edge
fixture extended with `K)YOU` and `I)SAN`,
`shortest_path("YOU", "SAN") = ["K", "J", "E", "D", "I"]`. -/
theorem C2_shortest_path_unique_nonadjacent :
    (∀ (m : Map) (src dst : String) (l : List String), Built m → Acyclic m →
      NodupChain m src l dst → l ≠ [] →
      (m.shortest_path src dst).1 = SPOutcome.found l) ∧
      (exampleMap2.shortest_path "YOU" "SAN").1 =
        SPOutcome.found ["K", "J", "E", "D", "I"] := by
  constructor
  · intro m src dst l hb hac hchain hne
    exact shortest_path_found hb hac hchain hne
  · decide

/-- Witness for C2 (amended) on the extended fixture, discharging the
`Built`, `Acyclic`, chain and nonemptiness hypotheses. -/
theorem C2_witness :
    Built exampleMap2 ∧ Acyclic exampleMap2 ∧
      NodupChain exampleMap2 "YOU" ["K", "J", "E", "D", "I"] "SAN" ∧
      (["K", "J", "E", "D", "I"] : List String) ≠ [] ∧
      (exampleMap2.shortest_path "YOU" "SAN").1 =
        SPOutcome.found ["K", "J", "E", "D", "I"] :=
  ⟨built_exampleMap2, acyclic_exampleMap2, nodupChain_you_san, by decide,
    C2_shortest_path_unique_nonadjacent.1 exampleMap2 "YOU" "SAN"
      ["K", "J", "E", "D", "I"] built_exampleMap2 acyclic_exampleMap2
      nodupChain_you_san (by decide)⟩

/-- C7: for every map built by insertions whose parent pointers are acyclic
(a forest) and every pair `(src, dst)` for which `shortest_path(src, dst)`
returns a path, `shortest_path(dst, src)` returns the reverse of that path,
with the same length. -/
theorem C7_shortest_path_reverse :
    ∀ (m : Map) (src dst : String) (l : List String), Built m → Acyclic m →
      (m.shortest_path src dst).1 = SPOutcome.found l →
      (m.shortest_path dst src).1 = SPOutcome.found l.reverse ∧
        l.reverse.length = l.length := by
  intro m src dst l hb hac hfound
  have inv := built_inv hb
  by_cases hreach : StepReach m src dst
  · by_cases hadj : dst ∈ connList m src
    · rw [shortest_path_drains m src dst (Or.inr hadj)] at hfound
      exact SPOutcome.noConfusion hfound
    · by_cases hself : dst = src
      · rw [hself, shortest_path_self m src] at hfound
        exact SPOutcome.noConfusion hfound
      · obtain ⟨p, hf, hchain, hpne⟩ := shortest_path_complete hb hac hreach hadj hself
        rw [hfound] at hf
        have hlp : l = p := SPOutcome.found.inj hf
        subst hlp
        have hrev := nodupChain_reverse inv hchain
        have hrevne : l.reverse ≠ [] := fun h => hpne (List.reverse_eq_nil_iff.mp h)
        exact ⟨shortest_path_found hb hac hrev hrevne, List.length_reverse l⟩
  · rw [shortest_path_drains m src dst (Or.inl hreach)] at hfound
    exact SPOutcome.noConfusion hfound

/-- Witness for C7 on the extended fixture: the `YOU → SAN` search returns
`[K, J, E, D, I]` and the swapped search returns its reverse, same length. -/
theorem C7_witness :
    Built exampleMap2 ∧ Acyclic exampleMap2 ∧
      (exampleMap2.shortest_path "YOU" "SAN").1 =
        SPOutcome.found ["K", "J", "E", "D", "I"] ∧
      (exampleMap2.shortest_path "SAN" "YOU").1 =
        SPOutcome.found (["K", "J", "E", "D", "I"] : List String).reverse ∧
      (["K", "J", "E", "D", "I"] : List String).reverse.length =
        (["K", "J", "E", "D", "I"] : List String).length :=
  ⟨built_exampleMap2, acyclic_exampleMap2, by decide,
    (C7_shortest_path_reverse exampleMap2 "YOU" "SAN" ["K", "J", "E", "D", "I"]
        built_exampleMap2 acyclic_exampleMap2 (by decide)).1,
    (C7_shortest_path_reverse exampleMap2 "YOU" "SAN" ["K", "J", "E", "D", "I"]
        built_exampleMap2 acyclic_exampleMap2 (by decide)).2⟩

end Day6
